import Mathlib

/-!
Shallow embedding of the react-flux event dispatch engine
(src/src/flux.ts, src/src/Store.ts, src/src/stateManager.ts,
src/src/EventLogger.ts) and proofs about the spec's claims.

Modelling conventions:
* JavaScript values are modelled by the mutual inductive `Value` /
  `ValueList` / `FieldList` below (null, undefined, booleans, integer
  numbers, strings, Error objects, arrays, plain objects).  Floating
  point numbers are not modelled; object key order models JS insertion
  order.  An `Error` object is `Value.verr msg`; object references are
  abstracted away, so two `verr` values always model two distinct
  Error objects (faithful to `Object.is` on separately constructed
  errors, which is the only comparison the engine performs on them).
* `deepEq` models `is(fromJS(a), fromJS(b))` from stateManager.ts:
  value equality on primitives, entry-wise (key-order-insensitive)
  equality on plain objects, positional equality on arrays.
* User-supplied side-effect runners and reducers are inputs of the
  program, not source code; a runner is modelled by the `RunnerSpec`
  behaviours (synchronous throw, fulfilled value, rejected promise)
  and a reducer by a Lean function `Value → Except Value Value`
  (normal result or thrown value).  Nested dispatch from inside a
  handler is not modelled.
* The event loop is modelled by the `Machine` small-step executor at
  the end of the definitions: handler settlement order is the
  scheduler's choice (every order is realizable because handlers may
  return promises with arbitrary delays), and the code from the point
  an `await` resumes to the next suspension point runs atomically
  (JavaScript run-to-completion; the reduce loop in flux.ts lines
  157-205 contains no `await`).
-/

namespace RF

mutual

inductive Value : Type where
  | vnull
  | undef
  | vbool (b : Bool)
  | vint (n : Int)
  | vstr (s : String)
  | verr (msg : String)
  | arr (xs : ValueList)
  | obj (fs : FieldList)

inductive ValueList : Type where
  | nil
  | cons (v : Value) (rest : ValueList)

inductive FieldList : Type where
  | nil
  | cons (key : String) (v : Value) (rest : FieldList)

end

/-- Looks a key up in an object's field list (first occurrence). -/
def FieldList.lookup : FieldList → String → Option Value
  | .nil, _ => none
  | .cons k v rest, key => if k == key then some v else rest.lookup key

/-- JS property read: `object[key]`, `undefined` when absent. -/
def FieldList.getD (fs : FieldList) (k : String) : Value :=
  (fs.lookup k).getD (.undef)

/-- JS `key in object`. -/
def FieldList.hasKey (fs : FieldList) (k : String) : Bool :=
  (fs.lookup k).isSome

def FieldList.length : FieldList → Nat
  | .nil => 0
  | .cons _ _ rest => rest.length + 1

def FieldList.keys : FieldList → List String
  | .nil => []
  | .cons k _ rest => k :: rest.keys

/-- JS array read `xs[i]`, `undefined` when out of range. -/
def ValueList.idxD : ValueList → Nat → Value
  | .nil, _ => .undef
  | .cons v _, 0 => v
  | .cons _ rest, n + 1 => rest.idxD n

def ValueList.length : ValueList → Nat
  | .nil => 0
  | .cons _ rest => rest.length + 1

/-- Converts a Lean list of values to a JS array value. -/
def ValueList.ofList : List Value → ValueList
  | [] => .nil
  | v :: rest => .cons v (ofList rest)

mutual

/-- Models the equality used by `areValuesDifferent` in
stateManager.ts: `is(fromJS(first), fromJS(second))`.  `fromJS`
converts plain objects and arrays deeply into immutable maps and
lists, so their comparison is structural (for objects: equal sizes and
equal entries, insensitive to key order); all other values fall back
to `Object.is`.  Two `verr` values model two distinct Error objects,
so they always compare unequal. -/
def deepEq : Value → Value → Bool
  | .vnull, .vnull => true
  | .undef, .undef => true
  | .vbool a, .vbool b => a == b
  | .vint a, .vint b => a == b
  | .vstr a, .vstr b => a == b
  | .verr _, .verr _ => false
  | .arr xs, .arr ys => deepEqList xs ys
  | .obj f, .obj t => f.length == t.length && deepEqFields f t
  | _, _ => false

def deepEqList : ValueList → ValueList → Bool
  | .nil, .nil => true
  | .cons x xs, .cons y ys => deepEq x y && deepEqList xs ys
  | _, _ => false

def deepEqFields : FieldList → FieldList → Bool
  | .nil, _ => true
  | .cons k v rest, t =>
    (match t.lookup k with
     | some w => deepEq v w
     | none => false) && deepEqFields rest t

end

/-- stateManager.ts `areValuesDifferent`. -/
def areValuesDifferent (first second : Value) : Bool :=
  !(deepEq first second)

/-- Models `Object.is` (used by EventLogger's `getDiff` on the
non-composite branch): value equality on primitives; composite values
reaching this comparison are distinct objects, hence unequal. -/
def jsObjectIs : Value → Value → Bool
  | .vnull, .vnull => true
  | .undef, .undef => true
  | .vbool a, .vbool b => a == b
  | .vint a, .vint b => a == b
  | .vstr a, .vstr b => a == b
  | _, _ => false

mutual

/-- EventLogger.ts `getDiff` (lines 38-48): plain objects diff by
`getObjectDiff`, arrays by `getArrayDiff`, anything else is the new
value when `Object.is` says the values differ, else no diff. -/
def getDiff : Value → Value → Option Value
  | .obj f, .obj t =>
    match objDiff f t with
    | .nil => none
    | r => some (.obj r)
  | .arr xs, .arr ys =>
    match arrDiff xs ys 0 with
    | .nil => none
    | r => some (.arr r)
  | a, b => if jsObjectIs a b then none else some b

/-- EventLogger.ts `getObjectDiff` (lines 53-72): iterates the keys of
the `to` object, collecting the recursive diff of each key's values;
keys present only in `from` are never visited. -/
def objDiff (f : FieldList) : FieldList → FieldList
  | .nil => .nil
  | .cons k v rest =>
    match getDiff (f.getD k) v with
    | some d => .cons k d (objDiff f rest)
    | none => objDiff f rest

/-- EventLogger.ts `getArrayDiff` (lines 14-33): iterates the indices
of the `to` array, collecting (positionally, but without recording the
index) the recursive diffs. -/
def arrDiff (xs : ValueList) : ValueList → Nat → ValueList
  | .nil, _ => .nil
  | .cons y rest, i =>
    match getDiff (xs.idxD i) y with
    | some d => .cons d (arrDiff xs rest (i + 1))
    | none => arrDiff xs rest (i + 1)

end

/-- JS truthiness. -/
def truthy : Value → Bool
  | .vnull => false
  | .undef => false
  | .vbool b => b
  | .vint n => !(n == 0)
  | .vstr s => !(s == "")
  | _ => true

mutual

/-- Rough model of JSON.stringify, only used by `errorfy` to build an
Error message from a thrown non-Error non-string value.  String
escaping is approximated by plain quoting; `undefined` stringifies to
the text that `new Error(undefined)` produces. -/
def jsonStringify : Value → String
  | .vnull => "null"
  | .undef => "undefined"
  | .vbool b => if b then "true" else "false"
  | .vint n => toString n
  | .vstr s => "\"" ++ s ++ "\""
  | .verr _ => "\x7b\x7d"
  | .arr xs => "[" ++ jsonStringifyList xs ++ "]"
  | .obj fs => "\x7b" ++ jsonStringifyFields fs ++ "\x7d"

def jsonStringifyList : ValueList → String
  | .nil => ""
  | .cons v .nil => jsonStringify v
  | .cons v rest => jsonStringify v ++ "," ++ jsonStringifyList rest

def jsonStringifyFields : FieldList → String
  | .nil => ""
  | .cons k v .nil => "\"" ++ k ++ "\":" ++ jsonStringify v
  | .cons k v rest => "\"" ++ k ++ "\":" ++ jsonStringify v ++ "," ++ jsonStringifyFields rest

end

/-- flux.ts `errorfy` (lines 261-269): a truthy value with a truthy
`message` property is returned unchanged; a string becomes
`new Error(string)`; anything else becomes
`new Error(JSON.stringify(value))`. -/
def errorfy : Value → Value
  | .verr m => if m == "" then .verr (jsonStringify (.verr m)) else .verr m
  | .vstr s => .verr s
  | .obj fs =>
    if truthy (fs.getD "message") then .obj fs
    else .verr (jsonStringify (.obj fs))
  | v => .verr (jsonStringify v)

/-- flux.ts `isEventObject` (lines 274-286) restricted to the
arguments on which it returns — falsy values and values the `in`
operator accepts (objects, arrays, Error objects): true exactly for a
truthy value having the four keys dispatched, dispatching, error and
payload.  On a truthy primitive the source function does not return at
all: `isEventObjectE` below is the faithful fallible semantics, and
the two agree on the returning domain (`isEventObjectE_agrees`). -/
def isEventObject : Value → Bool
  | .obj fs =>
    fs.hasKey "dispatched" && fs.hasKey "dispatching" &&
      fs.hasKey "error" && fs.hasKey "payload"
  | _ => false

/-- The TypeError thrown by `'dispatched' in object` (flux.ts line
276) when `object` is a truthy primitive: the `in` operator requires
an object right operand. -/
def inOperatorTypeError (v : Value) : Value :=
  .verr ("TypeError: cannot use the in operator to search for dispatched in "
    ++ jsonStringify v)

/-- flux.ts `isEventObject` (lines 274-286) with its real error
behaviour: a falsy argument short-circuits the `&&` chain to false; an
object, an array or an Error object answers whether the four status
keys are present; a truthy primitive makes `'dispatched' in object`
throw a TypeError. -/
def isEventObjectE : Value → Except Value Bool
  | .obj fs =>
    .ok (fs.hasKey "dispatched" && fs.hasKey "dispatching" &&
      fs.hasKey "error" && fs.hasKey "payload")
  | .arr _ => .ok false
  | .verr _ => .ok false
  | v => if truthy v then .error (inOperatorTypeError v) else .ok false


/-! ## KeyedStateManager (src/src/stateManager.ts)

The claims' primary citation for the state manager is
src/src/stateManager.ts, whose `setState` performs the
`areValuesDifferent` deep-equality check and returns whether a change
occurred; the engine below is wired to this manager, matching the
spec's KeyedStateManager contract.  (The repository also carries a
historical variant of the file, in src/unnamed/part_001, whose
`setState` overwrites unconditionally and returns nothing.)
Unsubscribing is not modelled; subscriber callbacks are identified by
their numeric subscription keys, which `for..in` enumerates in
ascending (= subscription) order. -/

def lookupAssoc {α : Type} : List (String × α) → String → Option α
  | [], _ => none
  | (k, v) :: rest, key => if k == key then some v else lookupAssoc rest key

def setAssoc {α : Type} : List (String × α) → String → α → List (String × α)
  | [], k, v => [(k, v)]
  | (k', v') :: rest, k, v =>
    if k' == k then (k', v) :: rest else (k', v') :: setAssoc rest k v

structure KSM where
  state : List (String × Value)
  subs : List (String × List Nat)
  subKey : Nat

def KSM.empty : KSM := ⟨[], [], 0⟩

/-- stateManager.ts `selectState` (line 41): `stateManager[property]`,
reading `undefined` when the key is absent. -/
def KSM.selectState (m : KSM) (property : String) : Value :=
  (lookupAssoc m.state property).getD (.undef)

/-- The subscriber keys registered for a property, in ascending key
(= subscription) order. -/
def KSM.subsOf (m : KSM) (property : String) : List Nat :=
  (lookupAssoc m.subs property).getD []

/-- stateManager.ts `setState` (lines 48-62): when
`areValuesDifferent` holds, stores the value, synchronously notifies
every subscriber of the property in ascending key order and returns
true; otherwise stores nothing, notifies nobody and returns false.
The returned list is the sequence of notified subscriber keys. -/
def KSM.setState (m : KSM) (property : String) (value : Value) :
    Bool × KSM × List Nat :=
  if areValuesDifferent (m.selectState property) value then
    (true, { m with state := setAssoc m.state property value }, m.subsOf property)
  else
    (false, m, [])

/-- stateManager.ts `subscribe` (lines 67-81): stores the subscriber
under the next global key and returns that key. -/
def KSM.subscribe (m : KSM) (property : String) : Nat × KSM :=
  (m.subKey,
   { m with
     subs := setAssoc m.subs property (m.subsOf property ++ [m.subKey])
     subKey := m.subKey + 1 })

/-! ## Event status bookkeeping (src/src/flux.ts) -/

/-- Fields contributed when a value is spread into an object literal:
an object contributes its fields, `undefined`, `null` and the other
primitives contribute none.  (Index-spreading of strings and arrays is
not modelled; the engine only ever spreads status objects or the empty
object here.) -/
def spreadFields : Value → FieldList
  | .obj fs => fs
  | _ => .nil

def FieldList.append : FieldList → FieldList → FieldList
  | .nil, t => t
  | .cons k v rest, t => .cons k v (rest.append t)

/-- The existing keys of `old`, in order, with values overridden by
`patch` where present. -/
def overrideFields : FieldList → FieldList → FieldList
  | .nil, _ => .nil
  | .cons k v rest, patch =>
    .cons k ((patch.lookup k).getD v) (overrideFields rest patch)

/-- The keys of `patch` that are new relative to `old`, in patch
order. -/
def filterNewFields (old : FieldList) : FieldList → FieldList
  | .nil => .nil
  | .cons k v rest =>
    if old.hasKey k then filterNewFields old rest
    else .cons k v (filterNewFields old rest)

/-- JS object spread `\x7b...old, ...patch\x7d`: old keys in order
(patched values win), then new patch keys in patch order. -/
def mergeFields (old patch : FieldList) : FieldList :=
  (overrideFields old patch).append (filterNewFields old patch)

/-- flux.ts `setEventStatus` (lines 353-362): reads the current status
(`\x7b\x7d` when undefined), merges the patch over it and writes the
result back through the state manager.  `assertEventFormat` is run by
the source on entry; this core version is only applied to events
already known to contain a slash, where the assertion passes. -/
def setEventStatusCore (m : KSM) (event : String) (patch : FieldList) : KSM :=
  let old := spreadFields (m.selectState event)
  (m.setState event (.obj (mergeFields old patch))).2.1

/-- flux.ts `getEventStatus` (lines 299-322): the default status
returned for an event with no stored state, with the source's literal
key order. -/
def defaultEventStatus : Value :=
  .obj (.cons "dispatched" (.vbool false) (.cons "dispatching" (.vbool false)
    (.cons "error" .vnull (.cons "payload" (.arr .nil) .nil))))

/-- flux.ts `selectEvent` / `getEventStatus` with `selectState`:
returns the stored status object, or the default when nothing (a falsy
value) is stored. -/
def selectEvent (m : KSM) (event : String) : Value :=
  let state := m.selectState event
  if truthy state then state else defaultEventStatus

/-- JS `event.indexOf("/") !== -1`: whether the string contains a
slash.  (Defined over the character list so that it evaluates inside
the kernel.) -/
def hasSlash (s : String) : Bool :=
  s.data.any (fun c => c == '/')

/-- flux.ts `getEventNamespace` (lines 291-294): `event.split("/")[0]`,
the part of the event before the first slash. -/
def getEventNamespace (event : String) : String :=
  String.mk (List.takeWhile (fun c => !(c == '/')) event.data)

/-! ## Stores and side-effect runners (src/src/Store.ts) -/

/-- A reducer as produced by a user handler: a function from the
current state to the next state, which may also throw. -/
def ReducerFn : Type := Value → Except Value Value

/-- A settled JavaScript value that a side-effect promise can fulfil
with: a (reducer) function, or any non-function value (`.val .undef`
models a handler that returned nothing). -/
inductive JsVal where
  | fn (f : ReducerFn)
  | val (v : Value)

/-- The observable behaviour of one registered user side-effect
runner.  A runner either throws synchronously while being started,
returns a value (possibly via a promise that fulfils later — the
settle order is the scheduler's choice), or returns a promise that
rejects.  Nested dispatch from inside a runner is not modelled. -/
inductive RunnerSpec where
  | syncThrows (e : Value)
  | fulfils (v : JsVal)
  | rejectsWith (e : Value)

/-- A store as registered with the engine: its namespace, initial
state, and its side-effect runners keyed by event in registration
order (Store.ts keeps them under ascending numeric keys, which
`for..in` enumerates in registration order). -/
structure MStore where
  ns : String
  initState : FieldList
  runners : List (String × RunnerSpec)

/-- Store.ts `startSideEffects` (lines 571-589) restricted to one
store: the runners registered for the event, in registration order. -/
def storeRunnersFor (s : MStore) (event : String) : List RunnerSpec :=
  (s.runners.filter (fun p => p.1 == event)).map (fun p => p.2)

/-- Store.ts `reduce` (lines 512-521): reads the namespace state,
applies the reducer (propagating a throw), writes the result through
`stateManager.setState` and returns the triple
`[changed, oldState, newState]` together with the updated manager. -/
def storeReduce (m : KSM) (ns : String) (f : ReducerFn) :
    Except Value ((Bool × Value × Value) × KSM) :=
  match f (m.selectState ns) with
  | .error e => .error e
  | .ok newState =>
    .ok (((m.setState ns newState).1, m.selectState ns, newState),
      (m.setState ns newState).2.1)

/-! ## The dispatch engine (src/src/flux.ts) -/

/-- One recorded Trace Logger call made by `dispatchImmediately`.
`diffEntry` records `logDiff(namespace, from, to)` together with the
diff the logger displays (`getDiff(from, to)`, EventLogger.ts lines
233-242). -/
inductive LogEntry where
  | diffEntry (ns : String) (fromArg toArg : Value) (shownDiff : Option Value)
  | noReducers (ns : Option String) (state : Option Value)
  | errorReducing (ns : String) (state : Value)
  | errorRunningSideEffects (ns : String) (state : Value)

/-- A zero-delay timer scheduled by the engine: `errorDispatch` is the
callback of `dispatchError` (flux.ts lines 69-81), `clearDispatched`
the callback scheduled at flux.ts line 231. -/
inductive TimerTask where
  | errorDispatch (event : String) (error : Value) (payload : List Value)
  | clearDispatched (event : String)

/-- The settlement of one side-effect promise. -/
inductive JsOutcome where
  | fulfilled (v : JsVal)
  | rejected (e : Value)

/-- Maps a non-synchronously-throwing runner to its promise
settlement.  (A synchronous throw aborts `startSideEffects` before a
promise exists; that constructor is handled separately and mapped here
only for totality.) -/
def seOutcome : RunnerSpec → JsOutcome
  | .syncThrows e => .rejected e
  | .fulfils v => .fulfilled v
  | .rejectsWith e => .rejected e

/-- flux.ts lines 143-145 on the no-throw domain: a resolved value
that looks like an event status object is replaced by `undefined`.
The collection-order development uses this total restriction; its
reduce-phase guard (`errored = none`) excludes every resolution on
which the source filter would instead throw.  `filterEventObjectE`
below is the faithful fallible filter. -/
def filterEventObject : JsVal → JsVal
  | .val v => if isEventObject v then .val .undef else .val v
  | .fn f => .fn f

/-- flux.ts lines 143-148, faithfully: the then-callback runs
`isEventObject(reducer)`; when that throws — a truthy primitive
resolution — the callback throws and the `.catch(reject)` of line 151
rejects the aggregate with the TypeError.  A status-shaped resolution
is replaced by `undefined`; functions (which the `in` operator
accepts) pass through. -/
def filterEventObjectE : JsVal → Except Value JsVal
  | .val v =>
    match isEventObjectE v with
    | .error e => .error e
    | .ok true => .ok (.val .undef)
    | .ok false => .ok (.val v)
  | .fn f => .ok (.fn f)

/-- Result of awaiting the `Promise.all`-like aggregation (flux.ts
lines 132-155). -/
inductive CollectRes where
  | ok (l : List (JsVal × String))
  | rejected (e : Value)
  | pending

def optionsAll {α : Type} : List (Option α) → Option (List α)
  | [] => some []
  | none :: _ => none
  | some a :: rest => (optionsAll rest).map (fun l => a :: l)

/-- The settlement process of flux.ts lines 132-155: promises settle
in the scheduler-chosen order `order`; a fulfilled promise at index
`i` stores `result[i] = (reducer-after-event-object-filter, store)`;
the first rejection in settle order rejects the aggregate; the
aggregate fulfils once every promise has fulfilled, and stays pending
otherwise. -/
def collectGo (ses : List (JsOutcome × String)) :
    List Nat → List (Option (JsVal × String)) → CollectRes
  | [], acc =>
    match optionsAll acc with
    | some l => .ok l
    | none => .pending
  | i :: rest, acc =>
    match ses.get? i with
    | some (.fulfilled v, ns) =>
      collectGo ses rest (acc.set i (some (filterEventObject v, ns)))
    | some (.rejected e, _) => .rejected e
    | none => collectGo ses rest acc

def collectSideEffects (ses : List (JsOutcome × String)) (order : List Nat) :
    CollectRes :=
  collectGo ses order (List.replicate ses.length none)

/-- The settlement process of flux.ts lines 132-155 with the filter's
real error behaviour: a fulfilled promise whose then-callback throws
the `in` TypeError rejects the aggregate exactly like a rejected
promise, so the reduce loop is never reached for such a resolution. -/
def collectGoE (ses : List (JsOutcome × String)) :
    List Nat → List (Option (JsVal × String)) → CollectRes
  | [], acc =>
    match optionsAll acc with
    | some l => .ok l
    | none => .pending
  | i :: rest, acc =>
    match ses.get? i with
    | some (.fulfilled v, ns) =>
      match filterEventObjectE v with
      | .error e => .rejected e
      | .ok v2 => collectGoE ses rest (acc.set i (some (v2, ns)))
    | some (.rejected e, _) => .rejected e
    | none => collectGoE ses rest acc

def collectSideEffectsE (ses : List (JsOutcome × String)) (order : List Nat) :
    CollectRes :=
  collectGoE ses order (List.replicate ses.length none)

/-- The canonical entry the aggregation produces for index `i` once
every promise has fulfilled. -/
def canonicalResolve : JsOutcome × String → JsVal × String
  | (.fulfilled v, ns) => (filterEventObject v, ns)
  | (.rejected _, ns) => (.val .undef, ns)

/-- State threaded through the reduce loop of flux.ts lines 161-179. -/
structure ReduceOut where
  ksm : KSM
  logs : List LogEntry
  applied : List String
  reducerCount : Nat
  lastStore : Option String
  errored : Option Value

/-- flux.ts lines 161-179, the loop over the collected
(reducer, store) pairs: `undefined` is skipped; a non-function value
throws the invalid-reducer error (quotes around the event name are
elided from the message); a function is run through `store.reduce`.
The destructuring at line 175,
`const [oldState, newState] = store.reduce(reducer)`, binds the
`changed` boolean (element 0 of the returned triple) to the name
`oldState` and the pre-reduction state (element 1) to the name
`newState`; those two values are what `logger.logDiff` receives. -/
def reduceLoop (event : String) :
    List (JsVal × String) → KSM → List LogEntry → List String → Nat →
      Option String → ReduceOut
  | [], ksm, logs, applied, cnt, last => ⟨ksm, logs, applied, cnt, last, none⟩
  | (.val .undef, _) :: rest, ksm, logs, applied, cnt, last =>
    reduceLoop event rest ksm logs applied cnt last
  | (.val _, _) :: _, ksm, logs, applied, cnt, last =>
    ⟨ksm, logs, applied, cnt, last,
      some (.verr ("Invalid reducer returned for " ++ event ++ "."))⟩
  | (.fn f, ns) :: rest, ksm, logs, applied, cnt, last =>
    match storeReduce ksm ns f with
    | .error e => ⟨ksm, logs, applied, cnt + 1, some ns, some e⟩
    | .ok (triple, ksm') =>
      let destructuredOld : Value := .vbool triple.1
      let destructuredNew : Value := triple.2.1
      reduceLoop event rest ksm'
        (logs ++ [.diffEntry ns destructuredOld destructuredNew
          (getDiff destructuredOld destructuredNew)])
        (applied ++ [ns]) (cnt + 1) (some ns)

/-- flux.ts lines 157-188 (the body of the inner `try`): run the
reduce loop, then, when no reducer ran, log the no-reducers entry for
the event's namespace store when it exists. -/
def reducePhaseFull (stores : List MStore) (ksm : KSM) (event : String)
    (l : List (JsVal × String)) (lastBefore : Option String) : ReduceOut :=
  match (reduceLoop event l ksm [] [] 0 lastBefore).errored with
  | some _ => reduceLoop event l ksm [] [] 0 lastBefore
  | none =>
    if (reduceLoop event l ksm [] [] 0 lastBefore).reducerCount == 0 then
      match stores.find? (fun s => s.ns == getEventNamespace event) with
      | some s =>
        { reduceLoop event l ksm [] [] 0 lastBefore with
          logs := (reduceLoop event l ksm [] [] 0 lastBefore).logs ++
            [.noReducers (some s.ns)
              (some ((reduceLoop event l ksm [] [] 0 lastBefore).ksm.selectState s.ns))] }
      | none =>
        { reduceLoop event l ksm [] [] 0 lastBefore with
          logs := (reduceLoop event l ksm [] [] 0 lastBefore).logs ++
            [.noReducers none none] }
    else reduceLoop event l ksm [] [] 0 lastBefore

/-- Which catch clause of `dispatchImmediately` is running: the outer
one (error while running side-effects, lines 206-223) or the inner one
(error while reducing, lines 189-203). -/
inductive ErrPhase where
  | sideEffects
  | reducing

/-- The shared error handling of flux.ts lines 189-203 / 206-223: log
the error against the last store touched (when any), errorfy the
thrown value, write it to the event's status, and — unless the failing
event is the reserved error event itself — write it again and schedule
`dispatchError` (a zero-delay timer, flux.ts lines 69-81) without
awaiting it. -/
def catchBranch (phase : ErrPhase) (ksm : KSM) (event : String)
    (payload : List Value) (lastStore : Option String) (e : Value) :
    KSM × List LogEntry × List TimerTask :=
  let logs : List LogEntry :=
    match lastStore with
    | some ns =>
      match phase with
      | .reducing => [.errorReducing ns (ksm.selectState ns)]
      | .sideEffects => [.errorRunningSideEffects ns (ksm.selectState ns)]
    | none => []
  let err := errorfy e
  let ksm1 := setEventStatusCore ksm event (.cons "error" err .nil)
  if event == "flux/error" then (ksm1, logs, [])
  else
    let ksm2 := setEventStatusCore ksm1 event (.cons "error" err .nil)
    (ksm2, logs, [.errorDispatch event err payload])

/-- The settlement state of the promise `dispatch` returned. -/
inductive PromiseResult where
  | resolved (status : Value)
  | rejectedP (e : Value)
  | pending

/-- flux.ts lines 225-233: resolve the logger, mark the event
dispatched / no longer dispatching, schedule the zero-delay
`dispatched: false` reset, and resolve the promise with
`selectEvent(event)`. -/
def dispatchTail (ksm : KSM) (event : String) : KSM × List TimerTask × Value :=
  let ksm1 := setEventStatusCore ksm event
    (.cons "dispatched" (.vbool true) (.cons "dispatching" (.vbool false) .nil))
  (ksm1, [.clearDispatched event], selectEvent ksm1 event)

/-- Everything one dispatch produced: the final state-manager
contents, the settlement of the returned promise, the Trace Logger
entries, the timers it scheduled (in scheduling order), the raw value
thrown inside it (when any), whether it entered its reduce phase, and
the namespaces it reduced in application order. -/
structure DOutcome where
  ksm : KSM
  result : PromiseResult
  logs : List LogEntry
  timers : List TimerTask
  errored : Option Value
  enteredReduce : Bool
  applied : List String

/-- flux.ts startSideEffects loop over one store's runners: the first
synchronous throw aborts the iteration. -/
def startStoreGo (ns : String) : List RunnerSpec → Except Value (List (JsOutcome × String))
  | [] => .ok []
  | .syncThrows e :: _ => .error e
  | .fulfils v :: rest => (startStoreGo ns rest).map (fun l => (seOutcome (.fulfils v), ns) :: l)
  | .rejectsWith e :: rest =>
    (startStoreGo ns rest).map (fun l => (seOutcome (.rejectsWith e), ns) :: l)

/-- flux.ts lines 112-128: iterate the registered stores in
registration order, starting each store's side effects and recording
the last store touched; a synchronous throw aborts the loop and
discards the side effects collected so far. -/
def startAllGo (event : String) :
    List MStore → List (JsOutcome × String) → Option String →
      Except (Value × Option String) (List (JsOutcome × String) × Option String)
  | [], acc, last => .ok (acc, last)
  | s :: rest, acc, _ =>
    match startStoreGo s.ns (storeRunnersFor s event) with
    | .error e => .error (e, some s.ns)
    | .ok outs => startAllGo event rest (acc ++ outs) (some s.ns)

/-- The initial status patch of flux.ts lines 92-97, with the
source's literal key order. -/
def initialStatusPatch (payload : List Value) : FieldList :=
  .cons "dispatched" (.vbool false) (.cons "dispatching" (.vbool true)
    (.cons "error" .vnull (.cons "payload" (.arr (ValueList.ofList payload)) .nil)))

/-- Result of the synchronous prefix of `dispatchImmediately` (from
entry to the `await` at line 132). -/
inductive PreResult where
  | donePre (out : DOutcome)
  | awaitingHandlers (ksm : KSM) (ses : List (JsOutcome × String)) (lastStore : Option String)

/-- The synchronous prefix of `dispatchImmediately` (flux.ts lines
91-132).  When the event has no slash, the `assertEventFormat` call
inside `setEventStatus` throws; because the promise executor is an
async function, that throw only rejects the executor's own (ignored)
promise, so the promise `dispatch` returned never settles and no state
is written.  Otherwise the initial status is written and every store's
side effects are started; a synchronous throw from a runner runs the
outer catch and the tail synchronously, so the dispatch completes
within this prefix. -/
def dispatchPre (stores : List MStore) (ksm : KSM) (event : String)
    (payload : List Value) : PreResult :=
  if hasSlash event then
    let ksm1 := setEventStatusCore ksm event (initialStatusPatch payload)
    match startAllGo event stores [] none with
    | .error (e, last) =>
      let c := catchBranch .sideEffects ksm1 event payload last e
      let t := dispatchTail c.1 event
      .donePre ⟨t.1, .resolved t.2.2, c.2.1, c.2.2 ++ t.2.1, some e, false, []⟩
    | .ok (ses, last) => .awaitingHandlers ksm1 ses last
  else
    .donePre ⟨ksm, .pending, [], [], none, false, []⟩

/-- flux.ts lines 157-233 once the reduce phase has run: when it ran
clean, the tail runs on its resulting state; when it threw, the inner
catch (lines 189-203) runs first.  Factored out of `dispatchPost` over
the reduce phase's result. -/
def afterReduce (event : String) (payload : List Value) (r : ReduceOut) : DOutcome :=
  match r.errored with
  | none =>
    ⟨(dispatchTail r.ksm event).1, .resolved (dispatchTail r.ksm event).2.2, r.logs,
      (dispatchTail r.ksm event).2.1, none, true, r.applied⟩
  | some e =>
    ⟨(dispatchTail (catchBranch .reducing r.ksm event payload r.lastStore e).1 event).1,
      .resolved (dispatchTail (catchBranch .reducing r.ksm event payload r.lastStore e).1
        event).2.2,
      r.logs ++ (catchBranch .reducing r.ksm event payload r.lastStore e).2.1,
      (catchBranch .reducing r.ksm event payload r.lastStore e).2.2 ++
        (dispatchTail (catchBranch .reducing r.ksm event payload r.lastStore e).1 event).2.1,
      some e, true, r.applied⟩

/-- The continuation of `dispatchImmediately` after the aggregate
await (flux.ts lines 132-233), given the settle order the scheduler
chose.  The region from line 157 to line 205 — setting
`fluxIsReducing`, the whole reduce loop, the inner catch, and clearing
`fluxIsReducing` — contains no suspension point, so it is one atomic
continuation. -/
def dispatchPost (stores : List MStore) (ksm : KSM) (event : String)
    (payload : List Value) (ses : List (JsOutcome × String))
    (last : Option String) (order : List Nat) : DOutcome :=
  match collectSideEffects ses order with
  | .pending => ⟨ksm, .pending, [], [], none, false, []⟩
  | .rejected e =>
    let c := catchBranch .sideEffects ksm event payload last e
    let t := dispatchTail c.1 event
    ⟨t.1, .resolved t.2.2, c.2.1, c.2.2 ++ t.2.1, some e, false, []⟩
  | .ok l => afterReduce event payload (reducePhaseFull stores ksm event l last)

/-- One whole dispatch (`dispatchImmediately`), as a function of the
settle order of its side-effect promises. -/
def dispatchModel (stores : List MStore) (ksm : KSM) (event : String)
    (payload : List Value) (order : List Nat) : DOutcome :=
  match dispatchPre stores ksm event payload with
  | .donePre out => out
  | .awaitingHandlers ksm1 ses last => dispatchPost stores ksm1 event payload ses last order

/-- What calling `flux.dispatch` observably returns at the call site.
`dispatchWhenAllowed` (flux.ts lines 243-256) is an async function, so
an exception inside it can only reject its returned promise, never
propagate synchronously to the caller; and no path rejects — the only
failure mode is the never-settling promise of a malformed event. -/
inductive JsCallResult where
  | syncThrow (e : Value)
  | promiseRes (r : PromiseResult)

def fluxDispatch (stores : List MStore) (ksm : KSM) (event : String)
    (payload : List Value) (order : List Nat) : JsCallResult :=
  .promiseRes (dispatchModel stores ksm event payload order).result

/-! ## The event loop machine

A small-step executor for whole programs: dispatches are issued from
the top level, their side-effect aggregates settle in
scheduler-chosen order, and zero-delay timers fire in FIFO order.
Step boundaries are exactly the suspension points of the source:
because the region between `fluxIsReducing = promise` (flux.ts line
159) and `fluxIsReducing = null` (line 205) contains no `await`, a
whole reduce phase happens inside one `settle` step, and
`fluxIsReducing` is null at every step boundary — which is why a
top-level `issue` step never finds the reducing slot occupied and
`dispatchWhenAllowed` proceeds immediately.  (Dispatches issued from
inside a reducer — the only code that can observe a non-null slot —
are not modelled.) -/

inductive TraceEv where
  | issued (d : Nat) (event : String)
  | reduceStart (d : Nat)
  | reduceEnd (d : Nat)
  | resolvedD (d : Nat)
deriving DecidableEq, Repr

/-- The lifecycle state of one dispatch record. -/
inductive DState where
  | awaitingHandlers (ses : List (JsOutcome × String)) (lastStore : Option String)
  | done (result : PromiseResult)

structure DispatchRec where
  event : String
  payload : List Value
  dstate : DState

structure Machine where
  stores : List MStore
  ksm : KSM
  dispatches : List DispatchRec
  timers : List TimerTask
  waiters : List (Nat × Value)
  trace : List TraceEv

/-- Store construction (Store.ts constructor, line 492):
`stateManager.setState(namespace, initialState)` for each added store,
in registration order. -/
def initStores : List MStore → KSM → KSM
  | [], m => m
  | s :: rest, m => initStores rest (m.setState s.ns (.obj s.initState)).2.1

def Machine.init (stores : List MStore) : Machine :=
  ⟨stores, initStores stores KSM.empty, [], [], [], []⟩

/-- When a dispatch completes, the continuation of any `dispatchError`
call that awaited it resumes on the following microtask and runs
`setEventStatus('flux/error', \x7b error \x7d)` (flux.ts line 78);
this is folded into the completing step. -/
def applyWaiterWrites : KSM → List (Nat × Value) → KSM
  | m, [] => m
  | m, (_, err) :: rest =>
    applyWaiterWrites (setEventStatusCore m "flux/error" (.cons "error" err .nil)) rest

def processWaiters (m : Machine) (d : Nat) (res : PromiseResult) : Machine :=
  match res with
  | .resolved _ =>
    let mine := m.waiters.filter (fun w => w.1 == d)
    let rest := m.waiters.filter (fun w => !(w.1 == d))
    { m with ksm := applyWaiterWrites m.ksm mine, waiters := rest }
  | _ => m

/-- A top-level `flux.dispatch` call: `dispatchWhenAllowed` finds
`fluxIsReducing` null (see the module comment) and runs the
synchronous prefix of `dispatchImmediately`. -/
def issueCore (m : Machine) (event : String) (payload : List Value) : Machine :=
  let d := m.dispatches.length
  match dispatchPre m.stores m.ksm event payload with
  | .donePre out =>
    let m1 : Machine :=
      { m with
        ksm := out.ksm
        dispatches := m.dispatches ++ [⟨event, payload, .done out.result⟩]
        timers := m.timers ++ out.timers
        trace := m.trace ++ [.issued d event] ++
          (match out.result with
           | .resolved _ => [.resolvedD d]
           | _ => []) }
    processWaiters m1 d out.result
  | .awaitingHandlers ksm1 ses last =>
    { m with
      ksm := ksm1
      dispatches := m.dispatches ++ [⟨event, payload, .awaitingHandlers ses last⟩]
      trace := m.trace ++ [.issued d event] }

/-- All side-effect promises of dispatch `d` settle (in the order the
scheduler chose) and the continuation of `dispatchImmediately` runs to
completion — including, when the aggregate fulfilled, the whole
atomic reduce phase, bracketed in the trace by `reduceStart` and
`reduceEnd`.  A step with an order that is not a permutation of the
promise indices, or a dispatch not awaiting its handlers, does not
correspond to a real scheduler event and leaves the machine
unchanged. -/
def settleCore (m : Machine) (d : Nat) (order : List Nat) : Machine :=
  match m.dispatches.get? d with
  | some dr =>
    match dr.dstate with
    | .awaitingHandlers ses last =>
      if (List.range ses.length).isPerm order then
        let out := dispatchPost m.stores m.ksm dr.event dr.payload ses last order
        let m1 : Machine :=
          { m with
            ksm := out.ksm
            dispatches := m.dispatches.set d { dr with dstate := .done out.result }
            timers := m.timers ++ out.timers
            trace := m.trace ++
              (if out.enteredReduce then [.reduceStart d, .reduceEnd d] else []) ++
              [.resolvedD d] }
        processWaiters m1 d out.result
      else m
    | _ => m
  | none => m

/-- The oldest pending zero-delay timer fires.  A `clearDispatched`
task runs `setEventStatus(event, \x7b dispatched: false \x7d)`
(flux.ts line 231).  An `errorDispatch` task runs the callback of
`dispatchError` (flux.ts lines 74-80): it dispatches the reserved
error event `flux/error` with payload `(event, error, ...payload)`
and, once that dispatch's promise resolves, writes the error into the
status of `flux/error`; when the dispatch is still awaiting its
handlers the write is registered as a waiter. -/
def runTimerCore (m : Machine) : Machine :=
  match m.timers with
  | [] => m
  | .clearDispatched event :: rest =>
    { m with
      ksm := setEventStatusCore m.ksm event (.cons "dispatched" (.vbool false) .nil)
      timers := rest }
  | .errorDispatch event err payload :: rest =>
    let m1 : Machine := { m with timers := rest }
    let d := m1.dispatches.length
    let m2 := issueCore m1 "flux/error" (.vstr event :: err :: payload)
    let st : Option DState := (m2.dispatches.get? d).map (fun dr => dr.dstate)
    match st with
    | some (.done (.resolved _)) =>
      { m2 with ksm := setEventStatusCore m2.ksm "flux/error" (.cons "error" err .nil) }
    | _ => { m2 with waiters := m2.waiters ++ [(d, err)] }

/-- A scheduler decision. -/
inductive SLabel where
  | issue (event : String) (payload : List Value)
  | settle (d : Nat) (order : List Nat)
  | runTimer

def stepM (m : Machine) : SLabel → Machine
  | .issue e p => issueCore m e p
  | .settle d ord => settleCore m d ord
  | .runTimer => runTimerCore m

/-- Runs a whole schedule from the freshly initialized machine. -/
def runSchedule (stores : List MStore) (sched : List SLabel) : Machine :=
  sched.foldl stepM (Machine.init stores)

/-! ## Trace predicates -/

/-- Scans a trace, tracking which dispatch (if any) is currently in
its reduce phase; `none` as a result means the scan found two
overlapping reduce phases or an unmatched bracket.  A successful scan
ending in state `none` witnesses that at most one dispatch is
reducing at any point of the trace. -/
def chkState : List TraceEv → Option Nat → Option (Option Nat)
  | [], s => some s
  | .reduceStart d :: rest, none => chkState rest (some d)
  | .reduceStart _ :: _, some _ => none
  | .reduceEnd d :: rest, some d' => if d == d' then chkState rest none else none
  | .reduceEnd _ :: _, none => none
  | .issued _ _ :: rest, s => chkState rest s
  | .resolvedD _ :: rest, s => chkState rest s

/-- Index-based happens-before on a trace (first occurrences). -/
def beforeB (t : List TraceEv) (a b : TraceEv) : Bool :=
  match t.indexOf? a, t.indexOf? b with
  | some i, some j => decide (i < j)
  | _, _ => false

/-- The serialization property claimed for any two overlapping
dispatches: whenever dispatch `a` was issued before dispatch `b`, and
`b` was issued before `a`'s promise settled, and both entered a
reduce phase, then `a`'s reduce phase fully completed before `b`'s
began. -/
def SerializedByIssue (t : List TraceEv) : Prop :=
  ∀ a b : Nat, ∀ ea eb : String,
    (TraceEv.issued a ea) ∈ t →
    (TraceEv.issued b eb) ∈ t →
    beforeB t (.issued a ea) (.issued b eb) = true →
    beforeB t (.issued b eb) (.resolvedD a) = true →
    (TraceEv.reduceStart a) ∈ t →
    (TraceEv.reduceStart b) ∈ t →
    beforeB t (.reduceEnd a) (.reduceStart b) = true

/-! ## Induction helpers for the mutual value type -/

theorem valueInd (M1 : Value → Prop) (M2 : ValueList → Prop) (M3 : FieldList → Prop)
    (h1 : M1 .vnull) (h2 : M1 .undef) (h3 : ∀ b, M1 (.vbool b)) (h4 : ∀ n, M1 (.vint n))
    (h5 : ∀ s, M1 (.vstr s)) (h6 : ∀ m, M1 (.verr m))
    (h7 : ∀ xs, M2 xs → M1 (.arr xs)) (h8 : ∀ fs, M3 fs → M1 (.obj fs))
    (h9 : M2 .nil) (h10 : ∀ v rest, M1 v → M2 rest → M2 (.cons v rest))
    (h11 : M3 .nil) (h12 : ∀ k v rest, M1 v → M3 rest → M3 (.cons k v rest)) :
    (∀ v, M1 v) ∧ (∀ xs, M2 xs) ∧ (∀ fs, M3 fs) :=
  ⟨fun v => @Value.rec M1 M2 M3 h1 h2 h3 h4 h5 h6 h7 h8 h9 h10 h11 h12 v,
   fun xs => @ValueList.rec M1 M2 M3 h1 h2 h3 h4 h5 h6 h7 h8 h9 h10 h11 h12 xs,
   fun fs => @FieldList.rec M1 M2 M3 h1 h2 h3 h4 h5 h6 h7 h8 h9 h10 h11 h12 fs⟩

theorem FieldList.fieldsSpineInd (P : FieldList → Prop) (h0 : P .nil)
    (h1 : ∀ k v rest, P rest → P (.cons k v rest)) : ∀ fs, P fs :=
  (valueInd (fun _ => True) (fun _ => True) P trivial trivial (fun _ => trivial)
    (fun _ => trivial) (fun _ => trivial) (fun _ => trivial) (fun _ _ => trivial)
    (fun _ _ => trivial) trivial (fun _ _ _ _ => trivial) h0
    (fun k v rest _ ih => h1 k v rest ih)).2.2

theorem ValueList.elemsSpineInd (P : ValueList → Prop) (h0 : P .nil)
    (h1 : ∀ v rest, P rest → P (.cons v rest)) : ∀ xs, P xs :=
  (valueInd (fun _ => True) P (fun _ => True) trivial trivial (fun _ => trivial)
    (fun _ => trivial) (fun _ => trivial) (fun _ => trivial) (fun _ _ => trivial)
    (fun _ _ => trivial) h0 (fun v rest _ ih => h1 v rest ih) trivial
    (fun _ _ _ _ _ => trivial)).2.1

/-! ## Plain state snapshots

`wfV` singles out the values that model plain JSON-like JS data: no
Error objects inside, and no duplicate keys at any object level (a JS
object literally cannot carry duplicate keys; the freedom exists only
in the embedding). -/

def FieldList.toPairs : FieldList → List (String × Value)
  | .nil => []
  | .cons k v rest => (k, v) :: rest.toPairs

def nodupKeysB : FieldList → Bool
  | .nil => true
  | .cons k _ rest => !(rest.hasKey k) && nodupKeysB rest

mutual

def wfV : Value → Bool
  | .vnull => true
  | .undef => true
  | .vbool _ => true
  | .vint _ => true
  | .vstr _ => true
  | .verr _ => false
  | .arr xs => wfL xs
  | .obj fs => nodupKeysB fs && wfFields fs

def wfL : ValueList → Bool
  | .nil => true
  | .cons v rest => wfV v && wfL rest

def wfFields : FieldList → Bool
  | .nil => true
  | .cons _ v rest => wfV v && wfFields rest

end

theorem hasKey_of_mem_toPairs {k : String} {v : Value} :
    ∀ {fs : FieldList}, (k, v) ∈ fs.toPairs → fs.hasKey k = true := by
  intro fs
  induction fs using FieldList.fieldsSpineInd with
  | h0 => intro h; simp [FieldList.toPairs] at h
  | h1 k2 v2 rest ih =>
    intro h
    simp only [FieldList.toPairs, List.mem_cons] at h
    rcases h with h | h
    · cases h
      simp [FieldList.hasKey, FieldList.lookup]
    · by_cases hk : k2 == k
      · simp [FieldList.hasKey, FieldList.lookup, hk]
      · have := ih h
        simp only [FieldList.hasKey, FieldList.lookup, hk] at this ⊢
        simpa using this

theorem lookup_of_nodup_mem {k : String} {v : Value} :
    ∀ {fs : FieldList}, nodupKeysB fs = true → (k, v) ∈ fs.toPairs →
      fs.lookup k = some v := by
  intro fs
  induction fs using FieldList.fieldsSpineInd with
  | h0 => intro _ h; simp [FieldList.toPairs] at h
  | h1 k2 v2 rest ih =>
    intro hnd h
    simp only [nodupKeysB, Bool.and_eq_true, Bool.not_eq_true'] at hnd
    simp only [FieldList.toPairs, List.mem_cons] at h
    rcases h with h | h
    · cases h
      simp [FieldList.lookup]
    · have hk : (k2 == k) = false := by
        by_contra hc
        have hk2 : k2 = k := by
          have : (k2 == k) = true := by
            cases hbe : k2 == k
            · exact absurd hbe hc
            · rfl
          exact beq_iff_eq.mp this
        subst hk2
        exact absurd (hasKey_of_mem_toPairs h) (by simp [hnd.1])
      simp [FieldList.lookup, hk, ih hnd.2 h]

/-! ## Diff lemmas (for the EventLogger claims) -/

theorem getDiffNoneTriple :
    (∀ x, ∀ y, deepEq x y = true → getDiff y x = none) ∧
    (∀ xs, ∀ (ys full : ValueList) (i : Nat), deepEqList xs ys = true →
      (∀ j, full.idxD (i + j) = ys.idxD j) → arrDiff full xs i = .nil) ∧
    (∀ t, ∀ f, deepEqFields t f = true → objDiff f t = .nil) := by
  refine valueInd
    (fun x => ∀ y, deepEq x y = true → getDiff y x = none)
    (fun xs => ∀ (ys full : ValueList) (i : Nat), deepEqList xs ys = true →
      (∀ j, full.idxD (i + j) = ys.idxD j) → arrDiff full xs i = .nil)
    (fun t => ∀ f, deepEqFields t f = true → objDiff f t = .nil)
    ?_ ?_ ?_ ?_ ?_ ?_ ?_ ?_ ?_ ?_ ?_ ?_
  · intro y h
    cases y <;> simp_all [deepEq, getDiff, jsObjectIs]
  · intro y h
    cases y <;> simp_all [deepEq, getDiff, jsObjectIs]
  · intro b y h
    cases y <;> simp_all [deepEq, getDiff, jsObjectIs]
  · intro n y h
    cases y <;> simp_all [deepEq, getDiff, jsObjectIs]
  · intro s y h
    cases y <;> simp_all [deepEq, getDiff, jsObjectIs]
  · intro m y h
    cases y <;> simp_all [deepEq]
  · intro xs ih y h
    cases y
    case arr ys =>
      have hde : deepEqList xs ys = true := by simpa [deepEq] using h
      have harr : arrDiff ys xs 0 = ValueList.nil := by
        apply ih ys ys 0 hde
        intro j
        simp
      simp [getDiff, harr]
    all_goals simp_all [deepEq]
  · intro fs ih y h
    cases y
    case obj g =>
      have hde : deepEqFields fs g = true := by
        simp only [deepEq, Bool.and_eq_true] at h
        exact h.2
      have hobj : objDiff g fs = FieldList.nil := ih g hde
      simp [getDiff, hobj]
    all_goals simp_all [deepEq]
  · intro ys full i _ _
    rfl
  · intro v rest ihv ihrest ys full i hde hidx
    cases ys with
    | nil => simp [deepEqList] at hde
    | cons y ys2 =>
      simp only [deepEqList, Bool.and_eq_true] at hde
      have h0 : full.idxD i = y := by
        have := hidx 0
        simpa using this
      have hd : getDiff y v = none := ihv y hde.1
      have hrest : arrDiff full rest (i + 1) = ValueList.nil := by
        apply ihrest ys2 full (i + 1) hde.2
        intro j
        have hadd : i + 1 + j = i + (j + 1) := by omega
        rw [hadd]
        simpa [ValueList.idxD] using hidx (j + 1)
      simp [arrDiff, h0, hd, hrest]
  · intro f _
    rfl
  · intro k v rest ihv ihrest f h
    simp only [deepEqFields, Bool.and_eq_true] at h
    obtain ⟨h1, h2⟩ := h
    cases hl : f.lookup k with
    | none => rw [hl] at h1; simp at h1
    | some w =>
      rw [hl] at h1
      have hd : getDiff w v = none := ihv w h1
      have hrest : objDiff f rest = FieldList.nil := ihrest f h2
      simp [objDiff, FieldList.getD, hl, hd, hrest]

/-- `getDiff` yields no diff on values that the state manager's deep
equality identifies. -/
theorem getDiff_none_of_deepEq (x y : Value) (h : deepEq x y = true) :
    getDiff y x = none :=
  getDiffNoneTriple.1 x y h

theorem deepEqReflTriple :
    (∀ v, wfV v = true → deepEq v v = true) ∧
    (∀ xs, wfL xs = true → deepEqList xs xs = true) ∧
    (∀ fs, wfFields fs = true → ∀ g,
      (∀ k v, (k, v) ∈ fs.toPairs → g.lookup k = some v) →
      deepEqFields fs g = true) := by
  refine valueInd
    (fun v => wfV v = true → deepEq v v = true)
    (fun xs => wfL xs = true → deepEqList xs xs = true)
    (fun fs => wfFields fs = true → ∀ g,
      (∀ k v, (k, v) ∈ fs.toPairs → g.lookup k = some v) →
      deepEqFields fs g = true)
    ?_ ?_ ?_ ?_ ?_ ?_ ?_ ?_ ?_ ?_ ?_ ?_
  · intro _; rfl
  · intro _; rfl
  · intro b _; simp [deepEq]
  · intro n _; simp [deepEq]
  · intro s _; simp [deepEq]
  · intro m h; simp [wfV] at h
  · intro xs ih h
    simp only [wfV] at h
    simp [deepEq, ih h]
  · intro fs ih h
    simp only [wfV, Bool.and_eq_true] at h
    obtain ⟨hnd, hwf⟩ := h
    have hsub : deepEqFields fs fs = true := by
      apply ih hwf fs
      intro k v hm
      exact lookup_of_nodup_mem hnd hm
    simp [deepEq, hsub]
  · intro _; rfl
  · intro v rest ihv ihrest h
    simp only [wfL, Bool.and_eq_true] at h
    simp [deepEqList, ihv h.1, ihrest h.2]
  · intro _ _ _; rfl
  · intro k v rest ihv ihrest h g compat
    simp only [wfFields, Bool.and_eq_true] at h
    have hk : g.lookup k = some v := by
      apply compat
      simp [FieldList.toPairs]
    have hrest : deepEqFields rest g = true := by
      apply ihrest h.2 g
      intro k2 v2 hm
      apply compat
      simp [FieldList.toPairs, hm]
    simp [deepEqFields, hk, ihv h.1, hrest]

/-- Deep equality is reflexive on plain snapshots. -/
theorem deepEq_refl (v : Value) (h : wfV v = true) : deepEq v v = true :=
  deepEqReflTriple.1 v h

/-- `getDiff` of a plain snapshot against itself yields no diff. -/
theorem getDiff_self (v : Value) (h : wfV v = true) : getDiff v v = none :=
  getDiff_none_of_deepEq v v (deepEq_refl v h)

theorem keys_append : ∀ a b : FieldList, (a.append b).keys = a.keys ++ b.keys := by
  intro a b
  induction a using FieldList.fieldsSpineInd with
  | h0 => rfl
  | h1 k v rest ih => simp [FieldList.append, FieldList.keys, ih]

theorem hasKey_iff_mem_keys {k : String} :
    ∀ {fs : FieldList}, fs.hasKey k = true ↔ k ∈ fs.keys := by
  intro fs
  induction fs using FieldList.fieldsSpineInd with
  | h0 => simp [FieldList.hasKey, FieldList.lookup, FieldList.keys]
  | h1 k2 v rest ih =>
    by_cases hk : k2 == k
    · have : k2 = k := beq_iff_eq.mp hk
      subst this
      simp [FieldList.hasKey, FieldList.lookup, FieldList.keys]
    · have hne : ¬(k2 = k) := fun hc => hk (beq_iff_eq.mpr hc)
      simp only [FieldList.hasKey, FieldList.lookup, hk] at ih ⊢
      simp [FieldList.keys, ih, Ne.symm hne, hne]

theorem wfFields_mem {k : String} {v : Value} :
    ∀ {fs : FieldList}, wfFields fs = true → (k, v) ∈ fs.toPairs → wfV v = true := by
  intro fs
  induction fs using FieldList.fieldsSpineInd with
  | h0 => intro _ hm; simp [FieldList.toPairs] at hm
  | h1 k2 v2 rest ih =>
    intro hwf hm
    simp only [wfFields, Bool.and_eq_true] at hwf
    simp only [FieldList.toPairs, List.mem_cons] at hm
    rcases hm with hm | hm
    · cases hm; exact hwf.1
    · exact ih hwf.2 hm

theorem objDiff_congr : ∀ (t f g : FieldList),
    (∀ k, k ∈ t.keys → f.getD k = g.getD k) → objDiff f t = objDiff g t := by
  intro t
  induction t using FieldList.fieldsSpineInd with
  | h0 => intro f g _; rfl
  | h1 k v rest ih =>
    intro f g h
    have hk : f.getD k = g.getD k := h k (by simp [FieldList.keys])
    have hrest : objDiff f rest = objDiff g rest := by
      apply ih
      intro k2 hm
      exact h k2 (by simp [FieldList.keys, hm])
    simp only [objDiff, hk, hrest]

theorem objDiff_nil_of_entries : ∀ (t f : FieldList),
    (∀ k v, (k, v) ∈ t.toPairs → getDiff (f.getD k) v = none) →
    objDiff f t = .nil := by
  intro t
  induction t using FieldList.fieldsSpineInd with
  | h0 => intro f _; rfl
  | h1 k v rest ih =>
    intro f h
    have hk : getDiff (f.getD k) v = none := h k v (by simp [FieldList.toPairs])
    have hrest : objDiff f rest = FieldList.nil := by
      apply ih
      intro k2 v2 hm
      exact h k2 v2 (by simp [FieldList.toPairs, hm])
    simp [objDiff, hk, hrest]

theorem objDiff_single_key : ∀ (l1 : FieldList) (k : String) (w v d : Value) (l2 : FieldList),
    wfFields (l1.append (.cons k w l2)) = true →
    nodupKeysB (l1.append (.cons k w l2)) = true →
    getDiff w v = some d →
    objDiff (l1.append (.cons k w l2)) (l1.append (.cons k v l2)) = .cons k d .nil := by
  intro l1
  induction l1 using FieldList.fieldsSpineInd with
  | h0 =>
    intro k w v d l2 hwf hnd hdiff
    simp only [FieldList.append] at hwf hnd ⊢
    simp only [wfFields, Bool.and_eq_true] at hwf
    simp only [nodupKeysB, Bool.and_eq_true, Bool.not_eq_true'] at hnd
    have hget : (FieldList.cons k w l2).getD k = w := by
      simp [FieldList.getD, FieldList.lookup]
    have hrest : objDiff (FieldList.cons k w l2) l2 = FieldList.nil := by
      apply objDiff_nil_of_entries
      intro k2 v2 hm
      have hk2 : (k == k2) = false := by
        by_contra hc
        have hkk : (k == k2) = true := by
          cases hbe : k == k2
          · exact absurd hbe hc
          · rfl
        have : k = k2 := beq_iff_eq.mp hkk
        subst this
        exact absurd (hasKey_of_mem_toPairs hm) (by simp [hnd.1])
      have hlk : (FieldList.cons k w l2).getD k2 = v2 := by
        simp [FieldList.getD, FieldList.lookup, hk2, lookup_of_nodup_mem hnd.2 hm]
      rw [hlk]
      exact getDiff_self v2 (wfFields_mem hwf.2 hm)
    simp [objDiff, hget, hdiff, hrest]
  | h1 k0 v0 rest ih =>
    intro k w v d l2 hwf hnd hdiff
    simp only [FieldList.append] at hwf hnd ⊢
    simp only [wfFields, Bool.and_eq_true] at hwf
    simp only [nodupKeysB, Bool.and_eq_true, Bool.not_eq_true'] at hnd
    have hget0 : (FieldList.cons k0 v0 (rest.append (.cons k w l2))).getD k0 = v0 := by
      simp [FieldList.getD, FieldList.lookup]
    have hself : getDiff v0 v0 = none := getDiff_self v0 hwf.1
    have hcongr :
        objDiff (FieldList.cons k0 v0 (rest.append (.cons k w l2))) (rest.append (.cons k v l2))
          = objDiff (rest.append (.cons k w l2)) (rest.append (.cons k v l2)) := by
      apply objDiff_congr
      intro k2 hm
      have hne : (k0 == k2) = false := by
        by_contra hc
        have hkk : (k0 == k2) = true := by
          cases hbe : k0 == k2
          · exact absurd hbe hc
          · rfl
        have : k0 = k2 := beq_iff_eq.mp hkk
        subst this
        have hmem : k0 ∈ (rest.append (.cons k w l2)).keys := by
          have hk1 : (rest.append (.cons k v l2)).keys = rest.keys ++ k :: l2.keys := by
            simp [keys_append, FieldList.keys]
          have hk2 : (rest.append (.cons k w l2)).keys = rest.keys ++ k :: l2.keys := by
            simp [keys_append, FieldList.keys]
          rw [hk1] at hm
          rw [hk2]
          exact hm
        exact absurd (hasKey_iff_mem_keys.mpr hmem) (by simp [hnd.1])
      simp [FieldList.getD, FieldList.lookup, hne]
    simp only [objDiff, hget0, hself, hcongr]
    exact ih k w v d l2 hwf.2 hnd.2 hdiff

/-- When `from` and `to` are plain objects sharing every entry except
the value at one key `k` that both carry, the diff is the bare
one-entry map `\x7b k: getDiff(from[k], to[k]) \x7d`. -/
theorem getDiff_single_key (l1 : FieldList) (k : String) (w v d : Value) (l2 : FieldList)
    (hwf : wfFields (l1.append (.cons k w l2)) = true)
    (hnd : nodupKeysB (l1.append (.cons k w l2)) = true)
    (hdiff : getDiff w v = some d) :
    getDiff (.obj (l1.append (.cons k w l2))) (.obj (l1.append (.cons k v l2)))
      = some (.obj (.cons k d .nil)) := by
  have h := objDiff_single_key l1 k w v d l2 hwf hnd hdiff
  simp [getDiff, h]

/-! ## Collection lemmas (for the reduction-ordering claims) -/

theorem optionsAll_map_some {α : Type} : ∀ l : List α, optionsAll (l.map some) = some l := by
  intro l
  induction l with
  | nil => rfl
  | cons a rest ih => simp [optionsAll, ih]

theorem collectGo_ok : ∀ (order : List Nat) (ses : List (JsOutcome × String))
    (acc : List (Option (JsVal × String))),
    (∀ x ∈ order, x < ses.length) →
    (∀ p ∈ ses, ∃ v, p.1 = JsOutcome.fulfilled v) →
    acc.length = ses.length →
    (∀ j p, ses.get? j = some p → j ∉ order →
      acc.get? j = some (some (canonicalResolve p))) →
    collectGo ses order acc = .ok (ses.map canonicalResolve) := by
  intro order
  induction order with
  | nil =>
    intro ses acc _ _ hlen hfill
    have hacc : acc = (ses.map canonicalResolve).map some := by
      apply List.ext_get?
      intro j
      by_cases hj : j < ses.length
      · cases hp : ses.get? j with
        | none =>
          exact absurd (List.get?_eq_none.mp hp) (by omega)
        | some p =>
          rw [hfill j p hp (by simp)]
          rw [List.get?_eq_getElem?] at hp
          simp [hp]
      · have h1 : acc.get? j = none := List.get?_eq_none.mpr (by omega)
        have h2 : ((ses.map canonicalResolve).map some).get? j = none :=
          List.get?_eq_none.mpr (by simp; omega)
        rw [h1, h2]
    rw [collectGo, hacc, optionsAll_map_some]
  | cons i rest ih =>
    intro ses acc hbound hful hlen hfill
    have hi : i < ses.length := hbound i (by simp)
    cases hp : ses.get? i with
    | none => exact absurd (List.get?_eq_none.mp hp) (by omega)
    | some p =>
      obtain ⟨v, hv⟩ := hful p (List.get?_mem hp)
      obtain ⟨p1, p2⟩ := p
      simp only at hv
      subst hv
      rw [collectGo, hp]
      apply ih
      · intro x hx
        exact hbound x (by simp [hx])
      · exact hful
      · simp [hlen]
      · intro j q hq hj
        by_cases hji : j = i
        · subst hji
          rw [hq] at hp
          cases hp
          rw [List.get?_set_eq_of_lt _ (by omega)]
          rfl
        · rw [List.get?_set_ne _ _ (show i ≠ j from fun hc => hji hc.symm)]
          exact hfill j q hq (by simp [hji, hj])

/-- The `Promise.all`-like aggregation of flux.ts lines 132-155
produces the collected (reducer, store) pairs in the original
side-effect start order, whatever order the promises settled in. -/
theorem collect_ok (ses : List (JsOutcome × String)) (order : List Nat)
    (hperm : (List.range ses.length).isPerm order = true)
    (hful : ∀ p ∈ ses, ∃ v, p.1 = JsOutcome.fulfilled v) :
    collectSideEffects ses order = .ok (ses.map canonicalResolve) := by
  have hp : (List.range ses.length).Perm order := List.isPerm_iff.mp hperm
  apply collectGo_ok
  · intro x hx
    have : x ∈ List.range ses.length := hp.mem_iff.mpr hx
    simpa [List.mem_range] using this
  · exact hful
  · simp
  · intro j p hq hj
    have hjlt : j < ses.length := by
      cases hlt : decide (j < ses.length) with
      | true => exact of_decide_eq_true hlt
      | false =>
        have := List.get?_eq_none.mpr (Nat.le_of_not_lt (of_decide_eq_false hlt))
        rw [this] at hq
        cases hq
    exact absurd (hp.mem_iff.mp (by simpa [List.mem_range] using hjlt)) hj

/-- The namespaces a collected list would reduce, in list order. -/
def appliedOf (l : List (JsVal × String)) : List String :=
  l.filterMap (fun p =>
    match p.1 with
    | .fn _ => some p.2
    | .val _ => none)

theorem reduceLoop_applied : ∀ (l : List (JsVal × String)) (event : String) (ksm : KSM)
    (logs : List LogEntry) (applied : List String) (cnt : Nat) (last : Option String),
    (reduceLoop event l ksm logs applied cnt last).errored = none →
    (reduceLoop event l ksm logs applied cnt last).applied = applied ++ appliedOf l := by
  intro l
  induction l with
  | nil => intro event ksm logs applied cnt last _; simp [reduceLoop, appliedOf]
  | cons p rest ih =>
    intro event ksm logs applied cnt last herr
    obtain ⟨jv, ns⟩ := p
    cases jv with
    | val v =>
      cases v <;> simp_all [reduceLoop, appliedOf]
    | fn f =>
      cases hsr : storeReduce ksm ns f with
      | error e => rw [reduceLoop, hsr] at herr ⊢; cases herr
      | ok pr =>
        rw [reduceLoop, hsr] at herr ⊢
        rw [ih _ _ _ _ _ _ herr]
        simp [appliedOf, List.filterMap_cons]

/-! ## Reduce-phase serialization lemmas -/

theorem chkState_append : ∀ (a b : List TraceEv) (s : Option Nat),
    chkState (a ++ b) s = (chkState a s).bind (fun s2 => chkState b s2) := by
  intro a
  induction a with
  | nil => intro b s; rfl
  | cons e rest ih =>
    intro b s
    cases e with
    | issued d ev => simp [chkState, ih]
    | resolvedD d => simp [chkState, ih]
    | reduceStart d =>
      cases s with
      | none => simp [chkState, ih]
      | some d2 => simp [chkState]
    | reduceEnd d =>
      cases s with
      | none => simp [chkState]
      | some d2 =>
        by_cases hd : d == d2
        · simp [chkState, hd, ih]
        · simp [chkState, hd]

theorem processWaiters_trace (m : Machine) (d : Nat) (res : PromiseResult) :
    (processWaiters m d res).trace = m.trace := by
  cases res <;> rfl

theorem issueCore_trace (m : Machine) (e : String) (p : List Value) :
    ∃ seg, (issueCore m e p).trace = m.trace ++ seg ∧ chkState seg none = some none := by
  unfold issueCore
  cases hd : dispatchPre m.stores m.ksm e p with
  | donePre out =>
    refine ⟨[.issued m.dispatches.length e] ++
      (match out.result with
       | .resolved _ => [.resolvedD m.dispatches.length]
       | _ => []), ?_, ?_⟩
    · simp only [processWaiters_trace]
      simp [List.append_assoc]
    · cases out.result <;> simp [chkState]
  | awaitingHandlers ksm1 ses last =>
    exact ⟨[.issued m.dispatches.length e], rfl, rfl⟩

theorem settleCore_trace (m : Machine) (d : Nat) (order : List Nat) :
    ∃ seg, (settleCore m d order).trace = m.trace ++ seg ∧ chkState seg none = some none := by
  unfold settleCore
  cases hg : m.dispatches.get? d with
  | none => exact ⟨[], by simp, rfl⟩
  | some dr =>
    cases hs : dr.dstate with
    | done r =>
      refine ⟨[], ?_, rfl⟩
      simp [hs]
    | awaitingHandlers ses last =>
      simp only [hs]
      by_cases hperm : (List.range ses.length).isPerm order = true
      · simp only [hperm, if_true]
        refine ⟨(if (dispatchPost m.stores m.ksm dr.event dr.payload ses last order).enteredReduce
            then [TraceEv.reduceStart d, TraceEv.reduceEnd d] else []) ++ [TraceEv.resolvedD d],
          ?_, ?_⟩
        · rw [processWaiters_trace]
          simp [List.append_assoc]
        · by_cases hr : (dispatchPost m.stores m.ksm dr.event dr.payload ses last order).enteredReduce
          · simp [hr, chkState]
          · simp [hr, chkState]
      · simp only [Bool.not_eq_true] at hperm
        simp only [hperm, Bool.false_eq_true, if_false]
        exact ⟨[], by simp, rfl⟩

theorem runTimerCore_trace (m : Machine) :
    ∃ seg, (runTimerCore m).trace = m.trace ++ seg ∧ chkState seg none = some none := by
  unfold runTimerCore
  cases ht : m.timers with
  | nil => simp only [ht]; exact ⟨[], by simp, rfl⟩
  | cons t rest =>
    cases t with
    | clearDispatched ev => simp only [ht]; exact ⟨[], by simp, rfl⟩
    | errorDispatch ev er pl =>
      obtain ⟨seg, hseg, hchk⟩ :=
        issueCore_trace { m with timers := rest } "flux/error" (.vstr ev :: er :: pl)
      refine ⟨seg, ?_, hchk⟩
      simp only [ht]
      split
      · simpa using hseg
      · simpa using hseg

theorem stepM_trace (m : Machine) (lbl : SLabel) :
    ∃ seg, (stepM m lbl).trace = m.trace ++ seg ∧ chkState seg none = some none := by
  cases lbl with
  | issue e p => exact issueCore_trace m e p
  | settle d order => exact settleCore_trace m d order
  | runTimer => exact runTimerCore_trace m

theorem foldl_chk : ∀ (sched : List SLabel) (m : Machine),
    chkState m.trace none = some none →
    chkState (sched.foldl stepM m).trace none = some none := by
  intro sched
  induction sched with
  | nil => intro m h; exact h
  | cons lbl rest ih =>
    intro m h
    apply ih
    obtain ⟨seg, hseg, hchk⟩ := stepM_trace m lbl
    rw [hseg, chkState_append, h]
    simpa using hchk

/-! ## Status-field lemmas -/

/-- Reads field `k` of a value when it is an object. -/
def lookupField : Value → String → Option Value
  | .obj fs, k => fs.lookup k
  | _, _ => none

theorem lookup_append (a b : FieldList) (k : String) :
    (a.append b).lookup k =
      match a.lookup k with
      | some v => some v
      | none => b.lookup k := by
  induction a using FieldList.fieldsSpineInd with
  | h0 => rfl
  | h1 k2 v2 rest ih =>
    by_cases hk : k2 == k
    · simp [FieldList.append, FieldList.lookup, hk]
    · simp [FieldList.append, FieldList.lookup, hk, ih]

theorem lookup_override (old patch : FieldList) (k : String) :
    (overrideFields old patch).lookup k =
      match old.lookup k with
      | some v => some ((patch.lookup k).getD v)
      | none => none := by
  induction old using FieldList.fieldsSpineInd with
  | h0 => rfl
  | h1 k2 v2 rest ih =>
    by_cases hk : k2 == k
    · have hke : k2 = k := beq_iff_eq.mp hk
      subst hke
      simp [overrideFields, FieldList.lookup, hk]
    · simp [overrideFields, FieldList.lookup, hk, ih]

theorem lookup_none_of_hasKey_false {old : FieldList} {k : String}
    (h : old.hasKey k = false) : old.lookup k = none := by
  cases hl : old.lookup k with
  | none => rfl
  | some v => rw [FieldList.hasKey, hl] at h; simp at h

theorem lookup_filterNew_of_not (patch : FieldList) (old : FieldList) (k : String)
    (h : old.hasKey k = false) :
    (filterNewFields old patch).lookup k = patch.lookup k := by
  induction patch using FieldList.fieldsSpineInd with
  | h0 => rfl
  | h1 k2 v2 rest ih =>
    by_cases hk : k2 == k
    · have hk2 : k2 = k := beq_iff_eq.mp hk
      subst hk2
      have hhk : old.hasKey k2 = false := h
      simp [filterNewFields, hhk, FieldList.lookup]
    · by_cases hhk : old.hasKey k2 = true
      · simp [filterNewFields, hhk, ih, FieldList.lookup, hk]
      · simp only [Bool.not_eq_true] at hhk
        simp [filterNewFields, hhk, FieldList.lookup, hk, ih]

theorem lookup_filterNew_of_has (patch : FieldList) (old : FieldList) (k : String)
    (h : old.hasKey k = true) :
    (filterNewFields old patch).lookup k = none := by
  induction patch using FieldList.fieldsSpineInd with
  | h0 => rfl
  | h1 k2 v2 rest ih =>
    by_cases hk : k2 == k
    · have hk2 : k2 = k := beq_iff_eq.mp hk
      subst hk2
      simp [filterNewFields, h, ih]
    · by_cases hhk : old.hasKey k2 = true
      · simp [filterNewFields, hhk, ih]
      · simp only [Bool.not_eq_true] at hhk
        simp [filterNewFields, hhk, FieldList.lookup, hk, ih]

theorem lookup_merge (old patch : FieldList) (k : String) :
    (mergeFields old patch).lookup k =
      match patch.lookup k with
      | some w => some w
      | none => old.lookup k := by
  unfold mergeFields
  rw [lookup_append, lookup_override]
  cases ho : old.lookup k with
  | some v =>
    cases hp : patch.lookup k with
    | some w => simp [hp]
    | none => simp [hp]
  | none =>
    have hhk : old.hasKey k = false := by
      simp [FieldList.hasKey, ho]
    rw [lookup_filterNew_of_not _ _ _ hhk]
    cases hp : patch.lookup k <;> simp

theorem length_append (a b : FieldList) : (a.append b).length = a.length + b.length := by
  induction a using FieldList.fieldsSpineInd with
  | h0 => simp [FieldList.append, FieldList.length]
  | h1 k v rest ih => simp [FieldList.append, FieldList.length, ih]; omega

theorem length_override (a p : FieldList) : (overrideFields a p).length = a.length := by
  induction a using FieldList.fieldsSpineInd with
  | h0 => rfl
  | h1 k v rest ih => simp [overrideFields, FieldList.length, ih]

theorem eq_nil_of_length_zero {fs : FieldList} (h : fs.length = 0) : fs = .nil := by
  cases fs with
  | nil => rfl
  | cons k v rest => simp [FieldList.length] at h

theorem hasKey_of_filterNew_nil (patch : FieldList) (old : FieldList)
    (h : filterNewFields old patch = .nil) :
    ∀ k w, patch.lookup k = some w → old.hasKey k = true := by
  induction patch using FieldList.fieldsSpineInd with
  | h0 => intro k w hk; simp [FieldList.lookup] at hk
  | h1 k2 v2 rest ih =>
    intro k w hk
    by_cases hhk : old.hasKey k2 = true
    · rw [filterNewFields, if_pos hhk] at h
      by_cases hke : k2 == k
      · have : k2 = k := beq_iff_eq.mp hke
        subst this
        exact hhk
      · rw [FieldList.lookup, if_neg (by simp [hke])] at hk
        exact ih h k w hk
    · simp only [Bool.not_eq_true] at hhk
      rw [filterNewFields, if_neg (by simp [hhk])] at h
      cases h

theorem deepEqFields_lookup : ∀ (fs : FieldList) (t : FieldList) (k : String) (u : Value),
    deepEqFields fs t = true → fs.lookup k = some u →
    ∃ w, t.lookup k = some w ∧ deepEq u w = true := by
  intro fs
  induction fs using FieldList.fieldsSpineInd with
  | h0 => intro t k u _ hl; simp [FieldList.lookup] at hl
  | h1 k2 v2 rest ih =>
    intro t k u hde hl
    simp only [deepEqFields, Bool.and_eq_true] at hde
    by_cases hke : k2 == k
    · rw [FieldList.lookup, if_pos hke] at hl
      cases hl
      cases hlk : t.lookup k2 with
      | none => rw [hlk] at hde; simp at hde
      | some w =>
        rw [hlk] at hde
        have : k2 = k := beq_iff_eq.mp hke
        subst this
        exact ⟨w, hlk, hde.1⟩
    · rw [FieldList.lookup, if_neg (by simp [hke])] at hl
      exact ih t k u hde.2 hl

theorem lookup_setAssoc_self (st : List (String × Value)) (k : String) (v : Value) :
    lookupAssoc (setAssoc st k v) k = some v := by
  induction st with
  | nil => simp [setAssoc, lookupAssoc]
  | cons p rest ih =>
    by_cases hk : p.1 == k
    · simp [setAssoc, lookupAssoc, hk]
    · simp [setAssoc, lookupAssoc, hk, ih]

theorem setState_select_write (m : KSM) (k : String) (v : Value)
    (h : areValuesDifferent (m.selectState k) v = true) :
    ((m.setState k v).2.1).selectState k = v := by
  simp only [KSM.selectState] at h
  simp [KSM.setState, KSM.selectState, h, lookup_setAssoc_self]

theorem setState_select_skip (m : KSM) (k : String) (v : Value)
    (h : areValuesDifferent (m.selectState k) v = false) :
    (m.setState k v).2.1 = m := by
  simp [KSM.setState, h]

/-- Writing a status patch through the state manager makes every
patched field whose value is rigid under deep equality (booleans,
Error objects) readable back exactly; this holds whether the write
happened or was skipped as a no-change write. -/
theorem setEventStatusCore_field (m : KSM) (event : String) (patch : FieldList)
    (k : String) (w : Value) (hp : patch.lookup k = some w)
    (hrig : ∀ u, deepEq u w = true → u = w) :
    lookupField ((setEventStatusCore m event patch).selectState event) k = some w := by
  unfold setEventStatusCore
  cases hdiff : areValuesDifferent (m.selectState event)
      (.obj (mergeFields (spreadFields (m.selectState event)) patch)) with
  | true =>
    rw [setState_select_write _ _ _ hdiff]
    simp only [lookupField]
    rw [lookup_merge, hp]
  | false =>
    rw [setState_select_skip _ _ _ hdiff]
    have hdeep : deepEq (m.selectState event)
        (.obj (mergeFields (spreadFields (m.selectState event)) patch)) = true := by
      simpa [areValuesDifferent] using hdiff
    cases hov : m.selectState event with
    | obj ofs =>
      rw [hov] at hdeep
      simp only [spreadFields, hov] at hdeep ⊢
      simp only [deepEq, Bool.and_eq_true] at hdeep
      obtain ⟨hlen, hsub⟩ := hdeep
      have hlen2 : (mergeFields ofs patch).length
          = ofs.length + (filterNewFields ofs patch).length := by
        unfold mergeFields
        rw [length_append, length_override]
      have hflen : (filterNewFields ofs patch).length = 0 := by
        have := beq_iff_eq.mp hlen
        omega
      have hfnil : filterNewFields ofs patch = .nil := eq_nil_of_length_zero hflen
      have hhk : ofs.hasKey k = true := hasKey_of_filterNew_nil patch ofs hfnil k w hp
      have hlk : ∃ u, ofs.lookup k = some u := by
        simp only [FieldList.hasKey, Option.isSome_iff_exists] at hhk
        exact hhk
      obtain ⟨u, hu⟩ := hlk
      obtain ⟨w2, hw2, hde⟩ := deepEqFields_lookup ofs (mergeFields ofs patch) k u hsub hu
      rw [lookup_merge, hp] at hw2
      cases hw2
      have : u = w := hrig u hde
      subst this
      simpa [lookupField] using hu
    | vnull => rw [hov] at hdeep; simp [deepEq] at hdeep
    | undef => rw [hov] at hdeep; simp [deepEq] at hdeep
    | vbool b => rw [hov] at hdeep; simp [deepEq] at hdeep
    | vint n => rw [hov] at hdeep; simp [deepEq] at hdeep
    | vstr s2 => rw [hov] at hdeep; simp [deepEq] at hdeep
    | verr msg => rw [hov] at hdeep; simp [deepEq] at hdeep
    | arr xs => rw [hov] at hdeep; simp [deepEq] at hdeep

/-- Fields outside the written patch keep their value. -/
theorem setEventStatusCore_field_other (m : KSM) (event : String) (patch : FieldList)
    (k : String) (hp : patch.lookup k = none) :
    lookupField ((setEventStatusCore m event patch).selectState event) k
      = lookupField (m.selectState event) k := by
  unfold setEventStatusCore
  cases hdiff : areValuesDifferent (m.selectState event)
      (.obj (mergeFields (spreadFields (m.selectState event)) patch)) with
  | true =>
    rw [setState_select_write _ _ _ hdiff]
    simp only [lookupField]
    rw [lookup_merge, hp]
    cases hov : m.selectState event with
    | obj ofs => simp [spreadFields, lookupField]
    | vnull => simp [spreadFields, lookupField, FieldList.lookup]
    | undef => simp [spreadFields, lookupField, FieldList.lookup]
    | vbool b => simp [spreadFields, lookupField, FieldList.lookup]
    | vint n => simp [spreadFields, lookupField, FieldList.lookup]
    | vstr s2 => simp [spreadFields, lookupField, FieldList.lookup]
    | verr msg => simp [spreadFields, lookupField, FieldList.lookup]
    | arr xs => simp [spreadFields, lookupField, FieldList.lookup]
  | false =>
    rw [setState_select_skip _ _ _ hdiff]

theorem rigid_vbool (b : Bool) : ∀ u, deepEq u (.vbool b) = true → u = .vbool b := by
  intro u h
  cases u <;> simp_all [deepEq]

theorem rigid_verr (msg : String) : ∀ u, deepEq u (.verr msg) = true → u = .verr msg := by
  intro u h
  cases u <;> simp_all [deepEq]

theorem obj_of_lookupField {v : Value} {k : String} {w : Value}
    (h : lookupField v k = some w) : ∃ fs, v = .obj fs := by
  cases v with
  | obj fs => exact ⟨fs, rfl⟩
  | vnull => simp [lookupField] at h
  | undef => simp [lookupField] at h
  | vbool b => simp [lookupField] at h
  | vint n => simp [lookupField] at h
  | vstr s2 => simp [lookupField] at h
  | verr msg => simp [lookupField] at h
  | arr xs => simp [lookupField] at h

/-! ## Error-path lemmas -/

theorem catchBranch_spec (phase : ErrPhase) (ksm : KSM) (event : String)
    (payload : List Value) (last : Option String) (e : Value)
    (hrig : ∀ u, deepEq u (errorfy e) = true → u = errorfy e) :
    lookupField ((catchBranch phase ksm event payload last e).1.selectState event) "error"
      = some (errorfy e) ∧
    (catchBranch phase ksm event payload last e).2.2
      = (if event == "flux/error" then []
         else [TimerTask.errorDispatch event (errorfy e) payload]) := by
  unfold catchBranch
  by_cases hev : (event == "flux/error") = true
  · simp only [hev, if_true]
    constructor
    · exact setEventStatusCore_field ksm event _ "error" (errorfy e) rfl hrig
    · trivial
  · simp only [Bool.not_eq_true] at hev
    simp only [hev, Bool.false_eq_true, if_false]
    constructor
    · exact setEventStatusCore_field _ event _ "error" (errorfy e) rfl hrig
    · trivial

theorem dispatchTail_spec (ksmc : KSM) (event : String) (err : Value)
    (h : lookupField (ksmc.selectState event) "error" = some err) :
    lookupField (dispatchTail ksmc event).2.2 "error" = some err ∧
    lookupField (dispatchTail ksmc event).2.2 "dispatching" = some (.vbool false) ∧
    (dispatchTail ksmc event).2.1 = [TimerTask.clearDispatched event] := by
  unfold dispatchTail
  have hd : lookupField ((setEventStatusCore ksmc event
      (.cons "dispatched" (.vbool true) (.cons "dispatching" (.vbool false) .nil))).selectState
        event) "dispatching" = some (.vbool false) := by
    apply setEventStatusCore_field
    · rfl
    · exact rigid_vbool false
  have he : lookupField ((setEventStatusCore ksmc event
      (.cons "dispatched" (.vbool true) (.cons "dispatching" (.vbool false) .nil))).selectState
        event) "error" = some err := by
    rw [setEventStatusCore_field_other]
    · exact h
    · rfl
  obtain ⟨fs, hfs⟩ := obj_of_lookupField hd
  rw [hfs] at hd he
  simp only [selectEvent, hfs, truthy]
  exact ⟨by simpa using he, by simpa using hd, trivial⟩

theorem catch_tail_spec (phase : ErrPhase) (ksmc : KSM) (event : String)
    (payload : List Value) (last : Option String) (e : Value)
    (hrig : ∀ u, deepEq u (errorfy e) = true → u = errorfy e) :
    lookupField (dispatchTail (catchBranch phase ksmc event payload last e).1 event).2.2
      "error" = some (errorfy e) ∧
    lookupField (dispatchTail (catchBranch phase ksmc event payload last e).1 event).2.2
      "dispatching" = some (.vbool false) ∧
    (catchBranch phase ksmc event payload last e).2.2 ++
        (dispatchTail (catchBranch phase ksmc event payload last e).1 event).2.1
      = (if event == "flux/error" then []
         else [TimerTask.errorDispatch event (errorfy e) payload]) ++
        [TimerTask.clearDispatched event] := by
  obtain ⟨hce, hct⟩ := catchBranch_spec phase ksmc event payload last e hrig
  obtain ⟨h1, h2, h3⟩ :=
    dispatchTail_spec (catchBranch phase ksmc event payload last e).1 event (errorfy e) hce
  exact ⟨h1, h2, by rw [hct, h3]⟩

theorem afterReduce_error_spec (event : String) (payload : List Value) (r : ReduceOut)
    (e : Value) (herr : (afterReduce event payload r).errored = some e)
    (hrig : ∀ u, deepEq u (errorfy e) = true → u = errorfy e) :
    ∃ st, (afterReduce event payload r).result = .resolved st ∧
      lookupField st "error" = some (errorfy e) ∧
      lookupField st "dispatching" = some (.vbool false) ∧
      (afterReduce event payload r).timers =
        (if event == "flux/error" then []
         else [TimerTask.errorDispatch event (errorfy e) payload]) ++
        [TimerTask.clearDispatched event] := by
  unfold afterReduce at herr ⊢
  cases hre : r.errored with
  | none =>
    rw [hre] at herr
    replace herr : (none : Option Value) = some e := herr
    cases herr
  | some e0 =>
    rw [hre] at herr
    replace herr : some e0 = some e := herr
    injection herr with he0
    subst he0
    obtain ⟨h1, h2, h3⟩ := catch_tail_spec .reducing r.ksm event payload r.lastStore e0 hrig
    exact ⟨_, rfl, h1, h2, h3⟩

theorem dispatchPost_error_spec (stores : List MStore) (ksm1 : KSM) (event : String)
    (payload : List Value) (ses : List (JsOutcome × String)) (last : Option String)
    (order : List Nat) (e : Value)
    (herr : (dispatchPost stores ksm1 event payload ses last order).errored = some e)
    (hrig : ∀ u, deepEq u (errorfy e) = true → u = errorfy e) :
    ∃ st, (dispatchPost stores ksm1 event payload ses last order).result = .resolved st ∧
      lookupField st "error" = some (errorfy e) ∧
      lookupField st "dispatching" = some (.vbool false) ∧
      (dispatchPost stores ksm1 event payload ses last order).timers =
        (if event == "flux/error" then []
         else [TimerTask.errorDispatch event (errorfy e) payload]) ++
        [TimerTask.clearDispatched event] := by
  unfold dispatchPost at herr ⊢
  cases hcol : collectSideEffects ses order with
  | pending =>
    rw [hcol] at herr
    replace herr : (none : Option Value) = some e := herr
    cases herr
  | rejected e0 =>
    rw [hcol] at herr
    replace herr : some e0 = some e := herr
    injection herr with he0
    subst he0
    obtain ⟨h1, h2, h3⟩ := catch_tail_spec .sideEffects ksm1 event payload last e0 hrig
    exact ⟨_, rfl, h1, h2, h3⟩
  | ok l =>
    rw [hcol] at herr
    replace herr :
        (afterReduce event payload (reducePhaseFull stores ksm1 event l last)).errored
          = some e := herr
    obtain ⟨st, hres, h1, h2, h3⟩ :=
      afterReduce_error_spec event payload (reducePhaseFull stores ksm1 event l last) e
        herr hrig
    exact ⟨st, hres, h1, h2, h3⟩

/-- Every dispatch in which user code threw resolves its promise with
the final status snapshot: the error field holds the errorfied thrown
value, dispatching has returned to false, and the error timers are
scheduled exactly when the event is not the reserved error event. -/
theorem dispatchModel_error_spec (stores : List MStore) (ksm : KSM) (event : String)
    (payload : List Value) (order : List Nat) (e : Value)
    (herr : (dispatchModel stores ksm event payload order).errored = some e)
    (hrig : ∀ u, deepEq u (errorfy e) = true → u = errorfy e) :
    ∃ st, (dispatchModel stores ksm event payload order).result = .resolved st ∧
      lookupField st "error" = some (errorfy e) ∧
      lookupField st "dispatching" = some (.vbool false) ∧
      (dispatchModel stores ksm event payload order).timers =
        (if event == "flux/error" then []
         else [TimerTask.errorDispatch event (errorfy e) payload]) ++
        [TimerTask.clearDispatched event] := by
  unfold dispatchModel at herr ⊢
  cases hpre : dispatchPre stores ksm event payload with
  | donePre out =>
    rw [hpre] at herr
    replace herr : out.errored = some e := herr
    unfold dispatchPre at hpre
    by_cases hslash : hasSlash event = true
    · rw [if_pos hslash] at hpre
      cases hstart : startAllGo event stores [] none with
      | ok p => rw [hstart] at hpre; simp at hpre
      | error p =>
        obtain ⟨e0, last⟩ := p
        rw [hstart] at hpre
        injection hpre with hout
        subst hout
        replace herr : some e0 = some e := herr
        injection herr with he0
        subst he0
        obtain ⟨h1, h2, h3⟩ := catch_tail_spec .sideEffects _ event payload last e0 hrig
        exact ⟨_, rfl, h1, h2, h3⟩
    · rw [if_neg hslash] at hpre
      injection hpre with hout
      subst hout
      replace herr : (none : Option Value) = some e := herr
      cases herr
  | awaitingHandlers ksm1 ses last =>
    rw [hpre] at herr
    replace herr : (dispatchPost stores ksm1 event payload ses last order).errored = some e :=
      herr
    obtain ⟨st, hres, h1, h2, h3⟩ :=
      dispatchPost_error_spec stores ksm1 event payload ses last order e herr hrig
    exact ⟨st, hres, h1, h2, h3⟩

theorem processWaiters_dispatches (m : Machine) (d : Nat) (res : PromiseResult) :
    (processWaiters m d res).dispatches = m.dispatches := by
  cases res <;> rfl

theorem issueCore_record (m : Machine) (e : String) (p : List Value) :
    ((issueCore m e p).dispatches.get? m.dispatches.length).map
        (fun dr => (dr.event, dr.payload)) = some (e, p) := by
  unfold issueCore
  cases hd : dispatchPre m.stores m.ksm e p with
  | donePre out =>
    rw [processWaiters_dispatches]
    simp [List.get?_concat_length]
  | awaitingHandlers ksm1 ses last =>
    simp [List.get?_concat_length]

/-- Firing a pending `errorDispatch` timer issues a dispatch of the
reserved event `flux/error` whose payload is the failing event, the
error, and the original payload. -/
theorem runTimer_errorDispatch (m : Machine) (ev : String) (er : Value)
    (pl : List Value) (rest : List TimerTask)
    (ht : m.timers = .errorDispatch ev er pl :: rest) :
    (((runTimerCore m).dispatches.get? m.dispatches.length).map
        (fun dr => (dr.event, dr.payload)))
      = some ("flux/error", .vstr ev :: er :: pl) := by
  unfold runTimerCore
  simp only [ht]
  have hrec := issueCore_record { m with timers := rest } "flux/error" (.vstr ev :: er :: pl)
  split
  · simpa using hrec
  · simpa using hrec

/-! ## No-count invariant (for the event-status shape claim) -/

/-- Every event-status entry (a key containing a slash) lacks a
`count` field. -/
def noCountKeys (m : KSM) : Prop :=
  ∀ k, hasSlash k = true → lookupField (m.selectState k) "count" = none

theorem lookup_setAssoc_other (st : List (String × Value)) (k1 : String) (v : Value)
    (k2 : String) (hne : k2 ≠ k1) :
    lookupAssoc (setAssoc st k1 v) k2 = lookupAssoc st k2 := by
  induction st with
  | nil =>
    have : (k1 == k2) = false := by
      simp [beq_iff_eq]
      exact fun hc => hne hc.symm
    simp [setAssoc, lookupAssoc, this]
  | cons p rest ih =>
    by_cases hk : p.1 == k1
    · have hp1 : p.1 = k1 := beq_iff_eq.mp hk
      have : (p.1 == k2) = false := by
        simp [beq_iff_eq, hp1]
        exact fun hc => hne hc.symm
      simp [setAssoc, hk, lookupAssoc, this]
    · simp [setAssoc, hk, lookupAssoc, ih]

theorem setState_select_other (m : KSM) (k1 : String) (v : Value) (k2 : String)
    (hne : k2 ≠ k1) : ((m.setState k1 v).2.1).selectState k2 = m.selectState k2 := by
  unfold KSM.setState
  by_cases hd : areValuesDifferent (m.selectState k1) v = true
  · simp only [KSM.selectState] at hd
    simp [hd, KSM.selectState, lookup_setAssoc_other _ _ _ _ hne]
  · simp only [Bool.not_eq_true] at hd
    simp only [KSM.selectState] at hd
    simp [hd, KSM.selectState]

theorem select_setEventStatusCore_other (m : KSM) (event : String) (patch : FieldList)
    (k : String) (hne : k ≠ event) :
    (setEventStatusCore m event patch).selectState k = m.selectState k := by
  unfold setEventStatusCore
  exact setState_select_other m event _ k hne

theorem noCount_setEventStatusCore (m : KSM) (event : String) (patch : FieldList)
    (hp : patch.lookup "count" = none) (h : noCountKeys m) :
    noCountKeys (setEventStatusCore m event patch) := by
  intro k hk
  by_cases hke : k = event
  · subst hke
    rw [setEventStatusCore_field_other m k patch "count" hp]
    exact h k hk
  · rw [select_setEventStatusCore_other m event patch k hke]
    exact h k hk

theorem noCount_setState_ns (m : KSM) (ns : String) (v : Value)
    (hns : hasSlash ns = false) (h : noCountKeys m) :
    noCountKeys ((m.setState ns v).2.1) := by
  intro k hk
  have hne : k ≠ ns := fun hc => by rw [hc] at hk; rw [hk] at hns; cases hns
  rw [setState_select_other m ns v k hne]
  exact h k hk

theorem noCount_storeReduce (m : KSM) (ns : String) (f : ReducerFn)
    (t : Bool × Value × Value) (ksm2 : KSM) (hns : hasSlash ns = false)
    (hok : storeReduce m ns f = .ok (t, ksm2)) (h : noCountKeys m) :
    noCountKeys ksm2 := by
  unfold storeReduce at hok
  cases hf : f (m.selectState ns) with
  | error e => rw [hf] at hok; cases hok
  | ok newState =>
    rw [hf] at hok
    injection hok with hp
    injection hp with hp1 hp2
    subst hp2
    exact noCount_setState_ns m ns newState hns h

theorem noCount_reduceLoop : ∀ (l : List (JsVal × String)) (event : String) (ksm : KSM)
    (logs : List LogEntry) (applied : List String) (cnt : Nat) (last : Option String),
    noCountKeys ksm → (∀ p ∈ l, hasSlash p.2 = false) →
    noCountKeys (reduceLoop event l ksm logs applied cnt last).ksm := by
  intro l
  induction l with
  | nil => intro event ksm logs applied cnt last h _; exact h
  | cons p rest ih =>
    intro event ksm logs applied cnt last h hns
    obtain ⟨jv, ns⟩ := p
    have hns0 : hasSlash ns = false := hns (jv, ns) (by simp)
    have hnsrest : ∀ q ∈ rest, hasSlash q.2 = false := fun q hq => hns q (by simp [hq])
    cases jv with
    | val v =>
      cases v <;> simp [reduceLoop] <;>
        first
          | exact ih event ksm logs applied cnt last h hnsrest
          | exact h
    | fn f =>
      cases hsr : storeReduce ksm ns f with
      | error e => rw [reduceLoop, hsr]; exact h
      | ok pr =>
        rw [reduceLoop, hsr]
        exact ih event _ _ _ _ _ (noCount_storeReduce ksm ns f pr.1 pr.2 hns0
          (by rw [hsr]) h) hnsrest

theorem reducePhaseFull_ksm (stores : List MStore) (ksm : KSM) (event : String)
    (l : List (JsVal × String)) (last : Option String) :
    (reducePhaseFull stores ksm event l last).ksm
      = (reduceLoop event l ksm [] [] 0 last).ksm := by
  unfold reducePhaseFull
  cases he : (reduceLoop event l ksm [] [] 0 last).errored with
  | some e => rfl
  | none =>
    by_cases hc : (reduceLoop event l ksm [] [] 0 last).reducerCount == 0
    · simp only [hc, if_true]
      cases hf : stores.find? (fun s => s.ns == getEventNamespace event) <;> rfl
    · simp only [Bool.not_eq_true] at hc
      simp [hc]

theorem noCount_catchBranch (phase : ErrPhase) (m : KSM) (event : String)
    (payload : List Value) (last : Option String) (e : Value) (h : noCountKeys m) :
    noCountKeys (catchBranch phase m event payload last e).1 := by
  unfold catchBranch
  by_cases hev : (event == "flux/error") = true
  · simp only [hev, if_true]
    exact noCount_setEventStatusCore m event _ rfl h
  · simp only [Bool.not_eq_true] at hev
    simp only [hev, Bool.false_eq_true, if_false]
    exact noCount_setEventStatusCore _ event _ rfl
      (noCount_setEventStatusCore m event _ rfl h)

theorem noCount_dispatchTail (m : KSM) (event : String) (h : noCountKeys m) :
    noCountKeys (dispatchTail m event).1 := by
  unfold dispatchTail
  exact noCount_setEventStatusCore m event _ rfl h

theorem optionsAll_mem {α : Type} : ∀ (acc : List (Option α)) (l : List α),
    optionsAll acc = some l → ∀ a ∈ l, some a ∈ acc := by
  intro acc
  induction acc with
  | nil =>
    intro l h a ha
    simp [optionsAll] at h
    subst h
    cases ha
  | cons x rest ih =>
    intro l h a ha
    cases x with
    | none => simp [optionsAll] at h
    | some b =>
      simp only [optionsAll] at h
      cases hr : optionsAll rest with
      | none => rw [hr] at h; cases h
      | some l2 =>
        rw [hr] at h
        injection h with hl
        subst hl
        rcases List.mem_cons.mp ha with hab | ha2
        · subst hab; simp
        · exact List.mem_cons_of_mem _ (ih l2 hr a ha2)

theorem collectGo_ns : ∀ (order : List Nat) (ses : List (JsOutcome × String))
    (acc : List (Option (JsVal × String))) (l : List (JsVal × String)),
    (∀ x ∈ acc, ∀ p, x = some p → ∃ q ∈ ses, p.2 = q.2) →
    collectGo ses order acc = .ok l →
    ∀ p ∈ l, ∃ q ∈ ses, p.2 = q.2 := by
  intro order
  induction order with
  | nil =>
    intro ses acc l hacc hok p hp
    rw [collectGo] at hok
    cases hall : optionsAll acc with
    | none => rw [hall] at hok; cases hok
    | some l2 =>
      rw [hall] at hok
      injection hok with hl
      subst hl
      exact hacc (some p) (optionsAll_mem acc l2 hall p hp) p rfl
  | cons i rest ih =>
    intro ses acc l hacc hok p hp
    rw [collectGo] at hok
    cases hg : ses.get? i with
    | none =>
      rw [hg] at hok
      exact ih ses acc l hacc hok p hp
    | some q =>
      obtain ⟨out, ns⟩ := q
      cases out with
      | rejected e => rw [hg] at hok; cases hok
      | fulfilled v =>
        rw [hg] at hok
        apply ih ses _ l _ hok p hp
        intro x hx p2 hp2
        rcases List.mem_or_eq_of_mem_set hx with hx2 | hx2
        · exact hacc x hx2 p2 hp2
        · subst hx2
          injection hp2 with hp3
          subst hp3
          exact ⟨(.fulfilled v, ns), List.get?_mem hg, rfl⟩

theorem startStoreGo_ns (ns : String) : ∀ (rs : List RunnerSpec) (outs : List (JsOutcome × String)),
    startStoreGo ns rs = .ok outs → ∀ p ∈ outs, p.2 = ns := by
  intro rs
  induction rs with
  | nil =>
    intro outs h p hp
    injection h with h2
    subst h2
    cases hp
  | cons r rest ih =>
    intro outs h p hp
    cases r with
    | syncThrows e => cases h
    | fulfils v =>
      rw [startStoreGo] at h
      cases hrest : startStoreGo ns rest with
      | error e => rw [hrest] at h; cases h
      | ok outs2 =>
        rw [hrest] at h
        injection h with h2
        subst h2
        rcases List.mem_cons.mp hp with hp2 | hp2
        · subst hp2; rfl
        · exact ih outs2 hrest p hp2
    | rejectsWith e =>
      rw [startStoreGo] at h
      cases hrest : startStoreGo ns rest with
      | error e2 => rw [hrest] at h; cases h
      | ok outs2 =>
        rw [hrest] at h
        injection h with h2
        subst h2
        rcases List.mem_cons.mp hp with hp2 | hp2
        · subst hp2; rfl
        · exact ih outs2 hrest p hp2

theorem startAllGo_ns (event : String) : ∀ (stores : List MStore)
    (acc : List (JsOutcome × String)) (last : Option String)
    (ses : List (JsOutcome × String)) (l2 : Option String),
    (∀ p ∈ acc, hasSlash p.2 = false) →
    (∀ s ∈ stores, hasSlash s.ns = false) →
    startAllGo event stores acc last = .ok (ses, l2) →
    ∀ p ∈ ses, hasSlash p.2 = false := by
  intro stores
  induction stores with
  | nil =>
    intro acc last ses l2 hacc _ h p hp
    injection h with h2
    injection h2 with h3 h4
    subst h3
    exact hacc p hp
  | cons s rest ih =>
    intro acc last ses l2 hacc hwf h p hp
    rw [startAllGo] at h
    cases hst : startStoreGo s.ns (storeRunnersFor s event) with
    | error e => rw [hst] at h; cases h
    | ok outs =>
      rw [hst] at h
      apply ih (acc ++ outs) (some s.ns) ses l2 _ (fun q hq => hwf q (by simp [hq])) h p hp
      intro q hq
      rcases List.mem_append.mp hq with hq2 | hq2
      · exact hacc q hq2
      · rw [startStoreGo_ns s.ns _ outs hst q hq2]
        exact hwf s (by simp)

theorem noCount_afterReduce (event : String) (payload : List Value) (r : ReduceOut)
    (h : noCountKeys r.ksm) : noCountKeys (afterReduce event payload r).ksm := by
  unfold afterReduce
  cases hre : r.errored with
  | none => exact noCount_dispatchTail r.ksm event h
  | some e =>
    exact noCount_dispatchTail _ event
      (noCount_catchBranch .reducing r.ksm event payload r.lastStore e h)

theorem noCount_dispatchPre (stores : List MStore) (ksm : KSM) (event : String)
    (payload : List Value) (hwf : ∀ s ∈ stores, hasSlash s.ns = false)
    (h : noCountKeys ksm) :
    (∀ out, dispatchPre stores ksm event payload = .donePre out → noCountKeys out.ksm) ∧
    (∀ ksm1 ses last, dispatchPre stores ksm event payload = .awaitingHandlers ksm1 ses last →
      noCountKeys ksm1 ∧ ∀ p ∈ ses, hasSlash p.2 = false) := by
  unfold dispatchPre
  have h1 : noCountKeys (setEventStatusCore ksm event (initialStatusPatch payload)) :=
    noCount_setEventStatusCore ksm event _ rfl h
  by_cases hslash : hasSlash event = true
  · rw [if_pos hslash]
    cases hstart : startAllGo event stores [] none with
    | error q =>
      constructor
      · intro out heq
        injection heq with hout
        subst hout
        exact noCount_dispatchTail _ event
          (noCount_catchBranch .sideEffects _ event payload q.2 q.1 h1)
      · intro ksm1 ses last heq
        cases heq
    | ok q =>
      constructor
      · intro out heq
        cases heq
      · intro ksm1 ses last heq
        injection heq with h2 h3 h4
        subst h2
        subst h3
        refine ⟨h1, ?_⟩
        exact startAllGo_ns event stores [] none q.1 q.2
          (fun p hp => by cases hp) hwf (by rw [hstart])
  · rw [if_neg hslash]
    constructor
    · intro out heq
      injection heq with hout
      subst hout
      exact h
    · intro ksm1 ses last heq
      cases heq

theorem noCount_dispatchPost (stores : List MStore) (ksm1 : KSM) (event : String)
    (payload : List Value) (ses : List (JsOutcome × String)) (last : Option String)
    (order : List Nat) (h : noCountKeys ksm1)
    (hses : ∀ p ∈ ses, hasSlash p.2 = false) :
    noCountKeys (dispatchPost stores ksm1 event payload ses last order).ksm := by
  unfold dispatchPost
  cases hcol : collectSideEffects ses order with
  | pending => exact h
  | rejected e =>
    exact noCount_dispatchTail _ event
      (noCount_catchBranch .sideEffects ksm1 event payload last e h)
  | ok l =>
    apply noCount_afterReduce
    rw [reducePhaseFull_ksm]
    apply noCount_reduceLoop l event ksm1 [] [] 0 last h
    intro p hp
    obtain ⟨q, hq, hpq⟩ := collectGo_ns order ses (List.replicate ses.length none) l
      (fun x hx p2 hp2 => by
        have := List.eq_of_mem_replicate hx
        subst this
        cases hp2) hcol p hp
    rw [hpq]
    exact hses q hq

theorem noCount_applyWaiterWrites : ∀ (ws : List (Nat × Value)) (m : KSM),
    noCountKeys m → noCountKeys (applyWaiterWrites m ws) := by
  intro ws
  induction ws with
  | nil => intro m h; exact h
  | cons w rest ih =>
    intro m h
    exact ih _ (noCount_setEventStatusCore m "flux/error" _ rfl h)

theorem processWaiters_ksm_noCount (m : Machine) (d : Nat) (res : PromiseResult)
    (h : noCountKeys m.ksm) : noCountKeys (processWaiters m d res).ksm := by
  cases res with
  | resolved st => exact noCount_applyWaiterWrites _ m.ksm h
  | rejectedP e => exact h
  | pending => exact h

theorem processWaiters_stores (m : Machine) (d : Nat) (res : PromiseResult) :
    (processWaiters m d res).stores = m.stores := by
  cases res <;> rfl

/-- The whole-machine invariant behind the no-count theorem. -/
def MInv (m : Machine) : Prop :=
  (∀ s ∈ m.stores, hasSlash s.ns = false) ∧ noCountKeys m.ksm ∧
  (∀ dr ∈ m.dispatches, ∀ ses last, dr.dstate = .awaitingHandlers ses last →
    ∀ p ∈ ses, hasSlash p.2 = false)

theorem MInv_issueCore (m : Machine) (e : String) (p : List Value) (h : MInv m) :
    MInv (issueCore m e p) := by
  obtain ⟨hwf, hksm, hds⟩ := h
  unfold issueCore
  cases hpre : dispatchPre m.stores m.ksm e p with
  | donePre out =>
    refine ⟨?_, ?_, ?_⟩
    · rw [processWaiters_stores]
      exact hwf
    · apply processWaiters_ksm_noCount
      exact (noCount_dispatchPre m.stores m.ksm e p hwf hksm).1 out hpre
    · rw [processWaiters_dispatches]
      intro dr hdr ses last heq
      rcases List.mem_append.mp hdr with hdr2 | hdr2
      · exact hds dr hdr2 ses last heq
      · simp only [List.mem_singleton] at hdr2
        subst hdr2
        cases heq
  | awaitingHandlers ksm1 ses0 last0 =>
    obtain ⟨h1, h2⟩ := (noCount_dispatchPre m.stores m.ksm e p hwf hksm).2 ksm1 ses0 last0 hpre
    refine ⟨hwf, h1, ?_⟩
    intro dr hdr ses last heq
    rcases List.mem_append.mp hdr with hdr2 | hdr2
    · exact hds dr hdr2 ses last heq
    · simp only [List.mem_singleton] at hdr2
      subst hdr2
      simp only at heq
      injection heq with h3 h4
      subst h3
      exact h2

theorem MInv_settleCore (m : Machine) (d : Nat) (order : List Nat) (h : MInv m) :
    MInv (settleCore m d order) := by
  obtain ⟨hwf, hksm, hds⟩ := h
  unfold settleCore
  cases hg : m.dispatches.get? d with
  | none => exact ⟨hwf, hksm, hds⟩
  | some dr =>
    cases hs : dr.dstate with
    | done r =>
      simp only [hs]
      exact ⟨hwf, hksm, hds⟩
    | awaitingHandlers ses last =>
      simp only [hs]
      by_cases hperm : (List.range ses.length).isPerm order = true
      · simp only [hperm, if_true]
        have hses : ∀ p ∈ ses, hasSlash p.2 = false :=
          hds dr (List.get?_mem hg) ses last hs
        refine ⟨?_, ?_, ?_⟩
        · rw [processWaiters_stores]
          exact hwf
        · apply processWaiters_ksm_noCount
          exact noCount_dispatchPost m.stores m.ksm dr.event dr.payload ses last order
            hksm hses
        · rw [processWaiters_dispatches]
          intro dr2 hdr2 ses2 last2 heq
          rcases List.mem_or_eq_of_mem_set hdr2 with hdr3 | hdr3
          · exact hds dr2 hdr3 ses2 last2 heq
          · subst hdr3
            cases heq
      · simp only [Bool.not_eq_true] at hperm
        simp only [hperm, Bool.false_eq_true, if_false]
        exact ⟨hwf, hksm, hds⟩

theorem MInv_runTimerCore (m : Machine) (h : MInv m) : MInv (runTimerCore m) := by
  obtain ⟨hwf, hksm, hds⟩ := h
  unfold runTimerCore
  cases ht : m.timers with
  | nil => exact ⟨hwf, hksm, hds⟩
  | cons t rest =>
    cases t with
    | clearDispatched ev =>
      simp only [ht]
      exact ⟨hwf, noCount_setEventStatusCore m.ksm ev _ rfl hksm, hds⟩
    | errorDispatch ev er pl =>
      simp only [ht]
      have hm2 : MInv (issueCore { m with timers := rest } "flux/error"
          (.vstr ev :: er :: pl)) :=
        MInv_issueCore { m with timers := rest } "flux/error" (.vstr ev :: er :: pl)
          ⟨hwf, hksm, hds⟩
      obtain ⟨hwf2, hksm2, hds2⟩ := hm2
      split
      · exact ⟨hwf2, noCount_setEventStatusCore _ "flux/error" _ rfl hksm2, hds2⟩
      · exact ⟨hwf2, hksm2, hds2⟩

theorem noCount_initStores : ∀ (stores : List MStore) (m : KSM),
    (∀ s ∈ stores, hasSlash s.ns = false) → noCountKeys m →
    noCountKeys (initStores stores m) := by
  intro stores
  induction stores with
  | nil => intro m _ h; exact h
  | cons s rest ih =>
    intro m hwf h
    exact ih _ (fun q hq => hwf q (by simp [hq]))
      (noCount_setState_ns m s.ns _ (hwf s (by simp)) h)

theorem noCountKeys_empty : noCountKeys KSM.empty := by
  intro k _
  rfl

theorem MInv_init (stores : List MStore) (hwf : ∀ s ∈ stores, hasSlash s.ns = false) :
    MInv (Machine.init stores) := by
  refine ⟨hwf, ?_, ?_⟩
  · exact noCount_initStores stores KSM.empty hwf noCountKeys_empty
  · intro dr hdr
    cases hdr

theorem MInv_runSchedule (stores : List MStore) (sched : List SLabel)
    (hwf : ∀ s ∈ stores, hasSlash s.ns = false) :
    MInv (runSchedule stores sched) := by
  unfold runSchedule
  have base := MInv_init stores hwf
  generalize Machine.init stores = m0 at base
  induction sched generalizing m0 with
  | nil => exact base
  | cons lbl rest ih =>
    apply ih
    cases lbl with
    | issue e p => exact MInv_issueCore m0 e p base
    | settle d order => exact MInv_settleCore m0 d order base
    | runTimer => exact MInv_runTimerCore m0 base

/-! ## Concrete example stores, schedules and machines -/

/-- A reducer setting `x` to 1. -/
def exRed : ReducerFn := fun _ => .ok (.obj (.cons "x" (.vint 1) .nil))

/-- A reducer setting `x` to 2. -/
def exRed2 : ReducerFn := fun _ => .ok (.obj (.cons "x" (.vint 2) .nil))

def s1 : MStore := ⟨"s1", .cons "x" (.vint 0) .nil, [("s1/a", .fulfils (.fn exRed))]⟩

def s2 : MStore := ⟨"s2", .cons "x" (.vint 0) .nil, [("s2/b", .fulfils (.fn exRed))]⟩

/-- Two overlapping dispatches; the second one's handlers settle
first. -/
def c1Sched : List SLabel :=
  [.issue "s1/a" [], .issue "s2/b" [], .settle 1 [0], .settle 0 [0]]

def c5Sched : List SLabel := [.issue "s1/a" [], .settle 0 [0], .runTimer]

def exKsm : KSM := initStores [s1] KSM.empty

def exKsm2 : KSM := (exKsm.setState "s1" (.obj (.cons "x" (.vint 1) .nil))).2.1

/-- Two stores whose side effects both fulfil with reducers. -/
def ses2 : List (JsOutcome × String) :=
  [(.fulfilled (.fn exRed), "s1"), (.fulfilled (.fn exRed2), "s2")]

def ksmBoth : KSM := initStores [s1, s2] KSM.empty

/-- A store whose single runner returns a promise that rejects. -/
def sErr : MStore := ⟨"se", .nil, [("se/x", .rejectsWith (.verr "boom"))]⟩

def ksmErr : KSM := initStores [sErr] KSM.empty

def mErr : Machine := runSchedule [sErr] [.issue "se/x" [], .settle 0 [0]]

/-- A state manager with one subscriber (key 0) on property `p`. -/
def subKsm : KSM := (KSM.empty.subscribe "p").2

def wroteKsm : KSM := (subKsm.setState "p" (.vint 1)).2.1

/-- A value carrying exactly the event-status keys. -/
def evObj : Value :=
  .obj (.cons "dispatched" (.vbool false) (.cons "dispatching" (.vbool true)
    (.cons "error" .vnull (.cons "payload" (.arr .nil) .nil))))

set_option maxRecDepth 10000

theorem c1_trace_eq : (runSchedule [s1, s2] c1Sched).trace
    = [.issued 0 "s1/a", .issued 1 "s2/b", .reduceStart 1, .reduceEnd 1, .resolvedD 1,
       .reduceStart 0, .reduceEnd 0, .resolvedD 0] := by decide

/-- On the returning domain of the source `isEventObject` — the
arguments where the fallible semantics yields a value rather than
throwing — the total restriction agrees with it. -/
theorem isEventObjectE_agrees : ∀ (v : Value) (b : Bool),
    isEventObjectE v = .ok b → isEventObject v = b := by
  intro v b h
  cases v with
  | vnull => injection h
  | undef => injection h
  | vbool b2 =>
    cases b2 with
    | false => injection h
    | true => simp [isEventObjectE, truthy] at h
  | vint n =>
    simp only [isEventObjectE] at h
    by_cases hn : truthy (Value.vint n) = true
    · rw [if_pos hn] at h
      cases h
    · rw [if_neg hn] at h
      injection h
  | vstr s3 =>
    simp only [isEventObjectE] at h
    by_cases hn : truthy (Value.vstr s3) = true
    · rw [if_pos hn] at h
      cases h
    · rw [if_neg hn] at h
      injection h
  | verr msg => injection h
  | arr xs => injection h
  | obj fs => injection h

/-! ## The claims -/

/-- Claim C1 (amended): at most one dispatch is in its reducing phase
at any point of any execution — the region between setting and
clearing `fluxIsReducing` contains no suspension point, so reduce
phases are atomic and never overlap.  (The original claim's further
assertion that reduce phases follow dispatch issue order is refuted by
`issueOrderNotSerialized`: overlapping dispatches reduce in the order
their handler aggregates settle.) -/
theorem atMostOneReducing (stores : List MStore) (sched : List SLabel) :
    chkState (runSchedule stores sched).trace none = some none :=
  foldl_chk sched (Machine.init stores) rfl

/-- Claim C1, counterexample to the original serialization wording:
dispatch 1 is issued after dispatch 0 and before dispatch 0 resolves,
both reduce, yet dispatch 1 completes its whole reduce phase first
because its side-effect promises settled first. -/
theorem issueOrderNotSerialized :
    ¬ SerializedByIssue (runSchedule [s1, s2] c1Sched).trace := by
  rw [c1_trace_eq]
  intro h
  exact absurd
    (h 0 1 "s1/a" "s2/b" (by decide) (by decide) (by decide) (by decide)
      (by decide) (by decide))
    (by decide)

/-- Claim C2: whatever order the handler promises settle in (any
permutation of their indices), the aggregation fulfils with the
(reducer, store) pairs in side-effect start order, and the reduce loop
applies the reducers exactly in that list order, one at a time. -/
theorem reducersAppliedInStartOrder (ses : List (JsOutcome × String)) (order : List Nat)
    (event : String) (ksm : KSM) (last : Option String)
    (hperm : (List.range ses.length).isPerm order = true)
    (hful : ∀ p ∈ ses, ∃ v, p.1 = JsOutcome.fulfilled v)
    (herr : (reduceLoop event (ses.map canonicalResolve) ksm [] [] 0 last).errored = none) :
    collectSideEffects ses order = .ok (ses.map canonicalResolve) ∧
    (reduceLoop event (ses.map canonicalResolve) ksm [] [] 0 last).applied
      = appliedOf (ses.map canonicalResolve) := by
  refine ⟨collect_ok ses order hperm hful, ?_⟩
  have h := reduceLoop_applied (ses.map canonicalResolve) event ksm [] [] 0 last herr
  simpa using h

/-- Claim C2, witness: stores s1 and s2 both return reducers; the
promises settle in reversed order `[1, 0]`, yet the collected pairs
and the applied namespaces are in start order `s1, s2`. -/
theorem reducersAppliedInStartOrderWitness :
    (List.range ses2.length).isPerm [1, 0] = true ∧
    (collectSideEffects ses2 [1, 0] = .ok (ses2.map canonicalResolve) ∧
      (reduceLoop "s1/a" (ses2.map canonicalResolve) ksmBoth [] [] 0 none).applied
        = appliedOf (ses2.map canonicalResolve)) :=
  ⟨by decide,
   reducersAppliedInStartOrder ses2 [1, 0] "s1/a" ksmBoth none (by decide)
     (by
       intro p hp
       simp only [ses2, List.mem_cons, List.not_mem_nil, or_false] at hp
       rcases hp with h | h
       · exact ⟨.fn exRed, by rw [h]⟩
       · exact ⟨.fn exRed2, by rw [h]⟩)
     rfl⟩

/-- Claim C3: whenever user code threw during a dispatch, the returned
promise still resolves (never rejects) with a status snapshot whose
error field is the errorfied thrown value and whose dispatching field
is back to false. -/
theorem dispatchErrorResolves (stores : List MStore) (ksm : KSM) (event : String)
    (payload : List Value) (order : List Nat) (e : Value)
    (herr : (dispatchModel stores ksm event payload order).errored = some e)
    (hrig : ∀ u, deepEq u (errorfy e) = true → u = errorfy e) :
    ∃ st, (dispatchModel stores ksm event payload order).result = .resolved st ∧
      lookupField st "error" = some (errorfy e) ∧
      lookupField st "dispatching" = some (.vbool false) := by
  obtain ⟨st, h1, h2, h3, _⟩ :=
    dispatchModel_error_spec stores ksm event payload order e herr hrig
  exact ⟨st, h1, h2, h3⟩

/-- Claim C3, witness: the store `sErr`'s runner rejects with an Error;
the dispatch resolves with that error in the status. -/
theorem dispatchErrorResolvesWitness :
    (dispatchModel [sErr] ksmErr "se/x" [] [0]).errored = some (.verr "boom") ∧
    (∃ st, (dispatchModel [sErr] ksmErr "se/x" [] [0]).result = .resolved st ∧
      lookupField st "error" = some (errorfy (.verr "boom")) ∧
      lookupField st "dispatching" = some (.vbool false)) :=
  ⟨rfl, dispatchErrorResolves [sErr] ksmErr "se/x" [] [0] (.verr "boom") rfl
    (rigid_verr "boom")⟩

/-- Claim C4: a failing dispatch of an event other than `flux/error`
schedules exactly one zero-delay `dispatchError` timer carrying
`(event, errorfy error, ...payload)` (a failing `flux/error` dispatch
schedules none), the original promise resolves without waiting for
that timer, and firing the timer issues a dispatch of the reserved
event `flux/error` with payload `(originalEvent, error,
...originalPayload)`. -/
theorem errorEventDispatched (stores : List MStore) (ksm : KSM) (event : String)
    (payload : List Value) (order : List Nat) (e : Value)
    (herr : (dispatchModel stores ksm event payload order).errored = some e)
    (hrig : ∀ u, deepEq u (errorfy e) = true → u = errorfy e)
    (m : Machine) (ev : String) (er : Value) (pl : List Value) (rest : List TimerTask)
    (ht : m.timers = .errorDispatch ev er pl :: rest) :
    (dispatchModel stores ksm event payload order).timers =
      (if event == "flux/error" then []
       else [TimerTask.errorDispatch event (errorfy e) payload]) ++
      [TimerTask.clearDispatched event] ∧
    (∃ st, (dispatchModel stores ksm event payload order).result = .resolved st) ∧
    (((runTimerCore m).dispatches.get? m.dispatches.length).map
        (fun dr => (dr.event, dr.payload))) = some ("flux/error", .vstr ev :: er :: pl) := by
  obtain ⟨st, h1, _, _, h4⟩ :=
    dispatchModel_error_spec stores ksm event payload order e herr hrig
  exact ⟨h4, ⟨st, h1⟩, runTimer_errorDispatch m ev er pl rest ht⟩

/-- Claim C4, witness: the failing dispatch of `se/x` schedules the
error timer before its `clearDispatched` timer, resolves its own
promise, and the machine `mErr` holding that timer dispatches
`flux/error` with payload `("se/x", error)` when the timer fires. -/
theorem errorEventDispatchedWitness :
    (dispatchModel [sErr] ksmErr "se/x" [] [0]).errored = some (.verr "boom") ∧
    mErr.timers = .errorDispatch "se/x" (.verr "boom") [] :: [.clearDispatched "se/x"] ∧
    ((dispatchModel [sErr] ksmErr "se/x" [] [0]).timers =
      (if "se/x" == "flux/error" then []
       else [TimerTask.errorDispatch "se/x" (errorfy (.verr "boom")) []]) ++
      [TimerTask.clearDispatched "se/x"] ∧
     (∃ st, (dispatchModel [sErr] ksmErr "se/x" [] [0]).result = .resolved st) ∧
     (((runTimerCore mErr).dispatches.get? mErr.dispatches.length).map
        (fun dr => (dr.event, dr.payload)))
       = some ("flux/error", .vstr "se/x" :: .verr "boom" :: [])) :=
  ⟨rfl, rfl,
   errorEventDispatched [sErr] ksmErr "se/x" [] [0] (.verr "boom") rfl
     (rigid_verr "boom") mErr "se/x" (.verr "boom") [] [.clearDispatched "se/x"] rfl⟩

/-- Claim C5: no event status ever carries a `count` field — the
source's EventObject has only dispatched, dispatching, error and
payload, and no write anywhere in the engine adds a `count` key, so
after any schedule every event's status lacks it. -/
theorem statusHasNoCountField (stores : List MStore) (sched : List SLabel) (k : String)
    (hwf : ∀ s ∈ stores, hasSlash s.ns = false) (hk : hasSlash k = true) :
    lookupField ((runSchedule stores sched).ksm.selectState k) "count" = none :=
  (MInv_runSchedule stores sched hwf).2.1 k hk

/-- Claim C5, witness: after a full dispatch of `s1/a` (issue, settle,
timer), the event's status object exists (its `dispatched` key reads
false) yet has no `count` key. -/
theorem statusHasNoCountFieldWitness :
    hasSlash "s1/a" = true ∧
    lookupField ((runSchedule [s1] c5Sched).ksm.selectState "s1/a") "dispatched"
      = some (.vbool false) ∧
    lookupField ((runSchedule [s1] c5Sched).ksm.selectState "s1/a") "count" = none :=
  ⟨rfl, rfl,
   statusHasNoCountField [s1] c5Sched "s1/a"
     (fun s hs => by rw [List.mem_singleton.mp hs]; rfl) rfl⟩

/-- Claim C6 (amended): dispatching an event without a slash does not
throw synchronously at the call site — `dispatchWhenAllowed` is an
async function, so the `assertEventFormat` throw only rejects the
ignored promise of the executor; the promise `dispatch` returned never
settles and no state is written. -/
theorem malformedEventPendingPromise (stores : List MStore) (ksm : KSM) (event : String)
    (payload : List Value) (order : List Nat) (h : hasSlash event = false) :
    fluxDispatch stores ksm event payload order = .promiseRes .pending ∧
    (dispatchModel stores ksm event payload order).ksm = ksm := by
  have hpre : dispatchPre stores ksm event payload
      = .donePre ⟨ksm, .pending, [], [], none, false, []⟩ := by
    simp [dispatchPre, h]
  constructor
  · simp [fluxDispatch, dispatchModel, hpre]
  · simp [dispatchModel, hpre]

/-- Claim C6, witness: dispatching the slash-free event `badevent`
yields a forever-pending promise and leaves the state manager
untouched. -/
theorem malformedEventPendingPromiseWitness :
    hasSlash "badevent" = false ∧
    fluxDispatch [] KSM.empty "badevent" [] [] = .promiseRes .pending ∧
    (dispatchModel [] KSM.empty "badevent" [] []).ksm = KSM.empty :=
  ⟨rfl, (malformedEventPendingPromise [] KSM.empty "badevent" [] [] rfl).1,
   (malformedEventPendingPromise [] KSM.empty "badevent" [] [] rfl).2⟩

/-- Claim C6, counterexample to the original wording: the call on a
malformed event returns a (pending) promise — it is not a synchronous
throw to the caller. -/
theorem malformedEventNoSyncThrow :
    fluxDispatch [s1] KSM.empty "badevent" [] [] = .promiseRes .pending := rfl

/-- Claim C7: `Store.reduce` itself returns the triple
`(changed, oldState, newState)` exactly as specified (first conjunct),
but the destructuring `const [oldState, newState] = store.reduce(...)`
at flux.ts line 175 takes only the first two elements, so the Trace
Logger receives the `changed` boolean as the "from" state and the
pre-reduction state as the "to" state — the logged "diff" is the
pre-reduction state, not the old/new state diff (second conjunct). -/
theorem reduceTripleAndLoggedDiff :
    storeReduce exKsm "s1" exRed
      = .ok ((true, .obj (.cons "x" (.vint 0) .nil), .obj (.cons "x" (.vint 1) .nil)),
        exKsm2) ∧
    (dispatchModel [s1] exKsm "s1/a" [] [0]).logs
      = [.diffEntry "s1" (.vbool true) (.obj (.cons "x" (.vint 0) .nil))
          (some (.obj (.cons "x" (.vint 0) .nil)))] :=
  ⟨rfl, rfl⟩

/-- Claim C8: `setState` gates on the `areValuesDifferent` deep
equality check: it returns true exactly when the values differ
structurally; a differing write stores the value and notifies exactly
the property's subscribers in subscription order, an equal write
changes nothing and notifies nobody. -/
theorem setStateDeepEqualityGate (m : KSM) (k : String) (v : Value) :
    ((m.setState k v).1 = !(deepEq (m.selectState k) v)) ∧
    (deepEq (m.selectState k) v = false →
      ((m.setState k v).2.1).selectState k = v ∧
      (m.setState k v).2.2 = m.subsOf k ∧ (m.setState k v).1 = true) ∧
    (deepEq (m.selectState k) v = true →
      (m.setState k v).2.1 = m ∧ (m.setState k v).2.2 = [] ∧
      (m.setState k v).1 = false) := by
  by_cases hd : deepEq (m.selectState k) v = true
  · have hdiff : areValuesDifferent (m.selectState k) v = false := by
      simp [areValuesDifferent, hd]
    refine ⟨by simp [KSM.setState, hdiff, hd], ?_, ?_⟩
    · intro hf
      rw [hf] at hd
      cases hd
    · intro _
      refine ⟨setState_select_skip m k v hdiff, ?_, ?_⟩ <;> simp [KSM.setState, hdiff]
  · have hd2 : deepEq (m.selectState k) v = false := by
      simpa using hd
    have hdiff : areValuesDifferent (m.selectState k) v = true := by
      simp [areValuesDifferent, hd2]
    refine ⟨by simp [KSM.setState, hdiff, hd2], ?_, ?_⟩
    · intro _
      refine ⟨setState_select_write m k v hdiff, ?_, ?_⟩ <;> simp [KSM.setState, hdiff]
    · intro hf
      rw [hf] at hd2
      cases hd2

/-- Claim C8, witness: on `subKsm` (one subscriber, key 0, on `p`) the
first write of 1 differs from the absent value, stores it and notifies
subscriber 0; writing 1 again is deep-equal, changes nothing and
notifies nobody. -/
theorem setStateDeepEqualityGateWitness :
    (deepEq (subKsm.selectState "p") (.vint 1) = false ∧
      ((subKsm.setState "p" (.vint 1)).2.1).selectState "p" = .vint 1 ∧
      (subKsm.setState "p" (.vint 1)).2.2 = subKsm.subsOf "p" ∧
      (subKsm.setState "p" (.vint 1)).1 = true) ∧
    (deepEq (wroteKsm.selectState "p") (.vint 1) = true ∧
      (wroteKsm.setState "p" (.vint 1)).2.1 = wroteKsm ∧
      (wroteKsm.setState "p" (.vint 1)).2.2 = [] ∧
      (wroteKsm.setState "p" (.vint 1)).1 = false) :=
  ⟨⟨rfl, (setStateDeepEqualityGate subKsm "p" (.vint 1)).2.1 rfl⟩,
   ⟨rfl, (setStateDeepEqualityGate wroteKsm "p" (.vint 1)).2.2 rfl⟩⟩

/-- Claim C9 (amended): deep-equal snapshots diff to nothing; and when
exactly one key `k` differs between two plain objects, the diff is the
bare one-entry map carrying `k` — whose value is the recursive diff
`getDiff(from[k], to[k])`, which equals `to[k]` for non-composite
replacements but is a partial object for nested changes (see
`nestedDiffNotBareValue`). -/
theorem diffEmptyAndSingleKey (x y : Value) (l1 : FieldList) (k : String) (w v d : Value)
    (l2 : FieldList) (hxy : deepEq x y = true)
    (hwf : wfFields (l1.append (.cons k w l2)) = true)
    (hnd : nodupKeysB (l1.append (.cons k w l2)) = true)
    (hdiff : getDiff w v = some d) :
    getDiff y x = none ∧
    getDiff (.obj (l1.append (.cons k w l2))) (.obj (l1.append (.cons k v l2)))
      = some (.obj (.cons k d .nil)) :=
  ⟨getDiff_none_of_deepEq x y hxy, getDiff_single_key l1 k w v d l2 hwf hnd hdiff⟩

/-- Claim C9, witness: a snapshot diffs to nothing against itself, and
two one-key objects whose `k` values are the nested objects
`{ a: 1, b: 2 }` and `{ a: 1, b: 3 }` diff to the bare map
`{ k: { b: 3 } }`. -/
theorem diffEmptyAndSingleKeyWitness :
    deepEq (.obj (.cons "a" (.vint 1) .nil)) (.obj (.cons "a" (.vint 1) .nil)) = true ∧
    (getDiff (.obj (.cons "a" (.vint 1) .nil)) (.obj (.cons "a" (.vint 1) .nil)) = none ∧
      getDiff
        (.obj (FieldList.append .nil (.cons "k"
          (.obj (.cons "a" (.vint 1) (.cons "b" (.vint 2) .nil))) .nil)))
        (.obj (FieldList.append .nil (.cons "k"
          (.obj (.cons "a" (.vint 1) (.cons "b" (.vint 3) .nil))) .nil)))
        = some (.obj (.cons "k" (.obj (.cons "b" (.vint 3) .nil)) .nil))) :=
  ⟨rfl,
   diffEmptyAndSingleKey (.obj (.cons "a" (.vint 1) .nil)) (.obj (.cons "a" (.vint 1) .nil))
     .nil "k" (.obj (.cons "a" (.vint 1) (.cons "b" (.vint 2) .nil)))
     (.obj (.cons "a" (.vint 1) (.cons "b" (.vint 3) .nil)))
     (.obj (.cons "b" (.vint 3) .nil)) .nil rfl rfl rfl rfl⟩

/-- Claim C9, counterexample to the original wording: when the single
differing key holds nested objects, the diff entry is the partial
nested diff `{ b: 3 }`, not `newState[k]` itself. -/
theorem nestedDiffNotBareValue :
    getDiff
      (.obj (.cons "k" (.obj (.cons "a" (.vint 1) (.cons "b" (.vint 2) .nil))) .nil))
      (.obj (.cons "k" (.obj (.cons "a" (.vint 1) (.cons "b" (.vint 3) .nil))) .nil))
      = some (.obj (.cons "k" (.obj (.cons "b" (.vint 3) .nil)) .nil)) ∧
    deepEq (.obj (.cons "b" (.vint 3) .nil))
      (.obj (.cons "a" (.vint 1) (.cons "b" (.vint 3) .nil))) = false :=
  ⟨rfl, rfl⟩

/-- Claim C10 (amended): a handler resolution shaped like an
event-status object (truthy, carrying the four status keys) is
filtered to `undefined` before the reduce loop, so its store is
skipped exactly like a handler that returned nothing; a falsy
non-undefined resolution (null, false, 0, the empty string) — and any
object-shaped resolution lacking the keys — survives the filter and
makes the reduce loop throw the invalid-reducer error; but a truthy
primitive resolution never reaches the reduce loop at all:
`isEventObject` itself throws the `in`-operator TypeError, the
then-callback throws, and `.catch(reject)` rejects the side-effect
aggregate with that TypeError (see
`truthyPrimitiveRejectsBeforeReduce`). -/
theorem eventObjectSkippedOrTypeError (event : String) (rest : List (JsVal × String))
    (ksm : KSM) (logs : List LogEntry) (applied : List String) (cnt : Nat)
    (last : Option String) (ns : String) (v u w e : Value)
    (hv : isEventObjectE v = .ok true)
    (hu : isEventObjectE u = .ok false) (hne : u ≠ .undef)
    (hw : isEventObjectE w = .error e)
    (ses : List (JsOutcome × String)) (i : Nat) (order : List Nat)
    (acc : List (Option (JsVal × String)))
    (hget : ses.get? i = some (.fulfilled (.val w), ns)) :
    (filterEventObjectE (.val v) = .ok (.val .undef) ∧
      reduceLoop event ((.val .undef, ns) :: rest) ksm logs applied cnt last
        = reduceLoop event rest ksm logs applied cnt last) ∧
    (filterEventObjectE (.val u) = .ok (.val u) ∧
      (reduceLoop event ((.val u, ns) :: rest) ksm logs applied cnt last).errored
        = some (.verr ("Invalid reducer returned for " ++ event ++ "."))) ∧
    collectGoE ses (i :: order) acc = .rejected e := by
  refine ⟨⟨?_, ?_⟩, ⟨?_, ?_⟩, ?_⟩
  · simp only [filterEventObjectE]
    rw [hv]
  · rfl
  · simp only [filterEventObjectE]
    rw [hu]
  · cases u with
    | vnull => rfl
    | undef => exact absurd rfl hne
    | vbool b => rfl
    | vint n => rfl
    | vstr s3 => rfl
    | verr msg => rfl
    | arr xs => rfl
    | obj fs => rfl
  · rw [collectGoE, hget]
    have hf : filterEventObjectE (.val w) = .error e := by
      simp only [filterEventObjectE]
      rw [hw]
    simp [hf]

/-- Claim C10, witness: the status-shaped `evObj` is filtered to
`undefined` and skipped; the falsy resolution `null` survives the
filter and hits the invalid-reducer error; the truthy primitive
resolution "hi" makes the filter throw, rejecting the aggregate. -/
theorem eventObjectSkippedOrTypeErrorWitness :
    isEventObjectE evObj = .ok true ∧
    isEventObjectE .vnull = .ok false ∧
    isEventObjectE (.vstr "hi") = .error (inOperatorTypeError (.vstr "hi")) ∧
    ((filterEventObjectE (.val evObj) = .ok (.val .undef) ∧
       reduceLoop "e/x" ((.val .undef, "s1") :: []) KSM.empty [] [] 0 none
         = reduceLoop "e/x" [] KSM.empty [] [] 0 none) ∧
     (filterEventObjectE (.val .vnull) = .ok (.val .vnull) ∧
       (reduceLoop "e/x" ((.val .vnull, "s1") :: []) KSM.empty [] [] 0 none).errored
         = some (.verr ("Invalid reducer returned for " ++ "e/x" ++ "."))) ∧
     collectGoE [(.fulfilled (.val (.vstr "hi")), "s1")] (0 :: []) [none]
       = .rejected (inOperatorTypeError (.vstr "hi"))) :=
  ⟨rfl, rfl, rfl,
   eventObjectSkippedOrTypeError "e/x" [] KSM.empty [] [] 0 none "s1" evObj .vnull
     (.vstr "hi") (inOperatorTypeError (.vstr "hi")) rfl rfl (by intro h; cases h) rfl
     [(.fulfilled (.val (.vstr "hi")), "s1")] 0 [] [none] rfl⟩

/-- Claim C10, counterexample to the original contrast clause ("the
invalid-reducer error that any other non-function, non-empty return
value triggers"): a handler resolving to the non-empty string "hi"
never triggers that error — `isEventObject` throws the `in`-operator
TypeError on the truthy primitive, so the then-callback throws and the
side-effect aggregate rejects with that TypeError before any reduce
phase runs. -/
theorem truthyPrimitiveRejectsBeforeReduce :
    isEventObjectE (.vstr "hi") = .error (inOperatorTypeError (.vstr "hi")) ∧
    filterEventObjectE (.val (.vstr "hi")) = .error (inOperatorTypeError (.vstr "hi")) ∧
    collectSideEffectsE [(.fulfilled (.val (.vstr "hi")), "s1")] [0]
      = .rejected (inOperatorTypeError (.vstr "hi")) :=
  ⟨rfl, rfl, rfl⟩

end RF
